import Mathlib

/-!
Verification of the duplicate-analysis and document-merge engine of the
fantasim-world repository (scripts/analyze_inbox_duplicates.py and
scripts/docs/merge_duplicates.py), as a shallow embedding in Lean.

Both scripts delegate sequence alignment to Python's difflib.SequenceMatcher,
always constructed as SequenceMatcher(None, a, b), i.e. with isjunk = None and
the default autojunk = True.  The embedding therefore includes a faithful model
of CPython's SequenceMatcher for that configuration: __chain_b's b2j mapping
with the autojunk "popular element" deletion, find_longest_match (the seed
loop plus the two non-junk extension loops; with isjunk = None the bjunk set is
empty, so the two junk-extension loops of CPython never fire and are omitted),
get_matching_blocks (the recursive decomposition, the adjacent-block merge pass
and the (len(a), len(b), 0) terminator) and ratio.  Ratios are modelled as
exact rationals; every ratio value the claims compare against (0.0 and 1.0) is
exactly representable in Python's floats, and the arithmetic producing them
(2.0 * m / t with m, t small integers) is exact there as well.
-/

namespace Fantasim

/-- A matching block, difflib's named tuple Match(a, b, size). -/
structure MB where
  a : Nat
  b : Nat
  size : Nat
deriving DecidableEq

/-- CPython SequenceMatcher.__chain_b: an element of b is "popular" (and then
auto-junked) when autojunk is on, len(b) >= 200, and its number of occurrences
in b exceeds len(b) // 100 + 1. -/
def isPopular [DecidableEq α] (b : List α) (autojunk : Bool) (c : α) : Bool :=
  autojunk && decide (200 ≤ b.length) && decide (b.length / 100 + 1 < b.count c)

/-- b2j as a function: the ascending list of positions of c in b, empty for
popular (auto-junked) elements.  Python builds the dict in one pass over b and
then deletes the popular keys; the resulting mapping is the same. -/
def b2jf [DecidableEq α] (b : List α) (autojunk : Bool) (c : α) : List Nat :=
  if isPopular b autojunk c then []
  else (List.range b.length).filter (fun j => decide (b.get? j = some c))

/-- The inner `for j in b2j.get(a[i], [])` loop of find_longest_match's seed
phase, including the `j < blo: continue` and `j >= bhi: break` guards.  State
is (newj2len, besti, bestj, bestsize).  j2len is the previous row's dict,
encoded as a function that is 0 where Python's dict has no entry (stored run
lengths are always >= 1, so 0 encodes absence exactly); Python's
j2len.get(j-1, 0) at j = 0 reads key -1, which is never present, hence the
explicit j = 0 case. -/
def innerLoop (j2len : Nat → Nat) (blo bhi i : Nat) :
    List Nat → (Nat → Nat) → Nat → Nat → Nat → ((Nat → Nat) × Nat × Nat × Nat)
  | [], new, bi, bj, bs => (new, bi, bj, bs)
  | j :: js, new, bi, bj, bs =>
    if j < blo then innerLoop j2len blo bhi i js new bi bj bs
    else if bhi ≤ j then (new, bi, bj, bs)
    else
      let k := (if j = 0 then 0 else j2len (j - 1)) + 1
      let new' := Function.update new j k
      -- Python's best positions i-k+1 and j-k+1; written i+1-k, j+1-k, which is
      -- the same integer (k ≤ i+1 and k ≤ j+1 hold on every reachable state)
      -- and stays exact under Nat subtraction.
      if bs < k then innerLoop j2len blo bhi i js new' (i + 1 - k) (j + 1 - k) k
      else innerLoop j2len blo bhi i js new' bi bj bs

/-- find_longest_match's outer seed loop, over i in range(alo, ahi); each
iteration starts a fresh newj2len dict. -/
def seedLoop [DecidableEq α] [Inhabited α] (a : List α) (bj2 : α → List Nat)
    (blo bhi : Nat) :
    List Nat → (Nat → Nat) → Nat → Nat → Nat → (Nat × Nat × Nat)
  | [], _, bi, bj, bs => (bi, bj, bs)
  | i :: rest, j2len, bi, bj, bs =>
    let r := innerLoop j2len blo bhi i (bj2 (a.getD i default)) (fun _ => 0) bi bj bs
    seedLoop a bj2 blo bhi rest r.1 r.2.1 r.2.2.1 r.2.2.2

/-- The backward non-junk extension while-loop of find_longest_match (with
isjunk = None the "not isbjunk" test is constantly true).  The loop decrements
besti while alo < besti, so it runs at most besti iterations; it is written
with a structural fuel argument that the caller sets to besti, which makes it
kernel-computable.  extBack_fuel below shows the result does not depend on the
fuel as long as fuel ≥ besti, so this is exactly CPython's while loop. -/
def extBack [DecidableEq α] [Inhabited α] (a b : List α) (alo blo : Nat) :
    Nat → Nat → Nat → Nat → Nat × Nat × Nat
  | 0, bi, bj, bs => (bi, bj, bs)
  | fuel + 1, bi, bj, bs =>
    if alo < bi ∧ blo < bj ∧ a.getD (bi - 1) default = b.getD (bj - 1) default then
      extBack a b alo blo fuel (bi - 1) (bj - 1) (bs + 1)
    else (bi, bj, bs)

/-- The forward non-junk extension while-loop of find_longest_match; only
bestsize changes.  It increments bestsize while besti + bestsize < ahi, so it
runs at most ahi - (besti + bestsize) ≤ ahi iterations; fuel as in extBack
(see extFwd_fuel). -/
def extFwd [DecidableEq α] [Inhabited α] (a b : List α) (ahi bhi : Nat) :
    Nat → Nat → Nat → Nat → Nat
  | 0, _, _, bs => bs
  | fuel + 1, bi, bj, bs =>
    if bi + bs < ahi ∧ bj + bs < bhi ∧
        a.getD (bi + bs) default = b.getD (bj + bs) default then
      extFwd a b ahi bhi fuel bi bj (bs + 1)
    else bs

/-- find_longest_match(alo, ahi, blo, bhi) of SequenceMatcher(None, a, b):
best starts at (alo, blo, 0), then the seed loop, then the backward and
forward non-junk extensions.  bj2 is the precomputed b2j mapping. -/
def findLongestMatch [DecidableEq α] [Inhabited α] (a b : List α)
    (bj2 : α → List Nat) (alo ahi blo bhi : Nat) : MB :=
  let s := seedLoop a bj2 blo bhi (List.range' alo (ahi - alo)) (fun _ => 0) alo blo 0
  let e := extBack a b alo blo s.1 s.1 s.2.1 s.2.2
  let bs := extFwd a b ahi bhi ahi e.1 e.2.1 e.2.2
  ⟨e.1, e.2.1, bs⟩

/-- get_matching_blocks' recursive decomposition.  CPython drains a LIFO queue
of rectangles and sorts the collected blocks afterwards; every rectangle on
the queue is explored independently, so the sorted result is exactly this
in-order recursion (the blocks it emits are in strictly increasing a-position,
see the chain lemmas below).  Each recursive call strictly shrinks ahi - alo
(findLongestMatch_range), so a structural fuel > ahi - alo suffices; by
mbRec_fuel the result is fuel-independent in that range. -/
def mbRec [DecidableEq α] [Inhabited α] (a b : List α) (bj2 : α → List Nat) :
    Nat → Nat → Nat → Nat → Nat → List MB
  | 0, _, _, _, _ => []
  | fuel + 1, alo, ahi, blo, bhi =>
    let m := findLongestMatch a b bj2 alo ahi blo bhi
    if 0 < m.size then
      (if alo < m.a ∧ blo < m.b then mbRec a b bj2 fuel alo m.a blo m.b else []) ++
      [m] ++
      (if m.a + m.size < ahi ∧ m.b + m.size < bhi then
        mbRec a b bj2 fuel (m.a + m.size) ahi (m.b + m.size) bhi else [])
    else []

/-- The adjacent-block merge pass at the end of get_matching_blocks: running
block (i1, j1, k1) starts at (0, 0, 0); a block adjacent on both sides is
folded into it, otherwise the running block (if nonempty) is emitted. -/
def nonAdjAux : Nat → Nat → Nat → List MB → List MB
  | i1, j1, k1, [] => if 0 < k1 then [⟨i1, j1, k1⟩] else []
  | i1, j1, k1, m :: ms =>
    if i1 + k1 = m.a ∧ j1 + k1 = m.b then nonAdjAux i1 j1 (k1 + m.size) ms
    else (if 0 < k1 then [⟨i1, j1, k1⟩] else []) ++ nonAdjAux m.a m.b m.size ms

/-- get_matching_blocks() of SequenceMatcher(None, a, b) with the given
autojunk flag (the repository always uses the default, autojunk = True):
the recursive decomposition, the adjacent-merge pass, and the terminating
(len(a), len(b), 0) block. -/
def getMatchingBlocks [DecidableEq α] [Inhabited α] (a b : List α)
    (autojunk : Bool) : List MB :=
  nonAdjAux 0 0 0 (mbRec a b (b2jf b autojunk) (a.length + 1) 0 a.length 0 b.length) ++
    [⟨a.length, b.length, 0⟩]

/-- SequenceMatcher.ratio(): 2*M/T over the sum M of matching-block sizes and
the combined length T, and 1.0 when both sequences are empty (Python's
_calculate_ratio). -/
def smRatio [DecidableEq α] [Inhabited α] (a b : List α) (autojunk : Bool) : ℚ :=
  let matchTotal := ((getMatchingBlocks a b autojunk).map MB.size).sum
  if 0 < a.length + b.length then
    (2 * matchTotal : ℚ) / ((a.length + b.length : Nat) : ℚ)
  else 1

/-- InboxAnalyzer.calculate_similarity: SequenceMatcher(None, c1, c2).ratio()
over the raw character sequences. -/
def calculate_similarity (content1 content2 : String) : ℚ :=
  smRatio content1.data content2.data true

/-- InboxAnalyzer.calculate_line_overlap: set semantics over the two line-hash
lists; (0.0, 0) when max(len(set1), len(set2)) is 0. -/
def calculate_line_overlap (lineHashes1 lineHashes2 : List String) : ℚ × Nat :=
  let set1 := lineHashes1.toFinset
  let set2 := lineHashes2.toFinset
  let common := set1 ∩ set2
  let total := max set1.card set2.card
  if total = 0 then (0, 0)
  else ((common.card : ℚ) / (total : ℚ), common.card)

/-- Helper for splitlines: walk the characters, acc holding the current line
reversed. -/
def splitlinesAux : List Char → List Char → List String
  | [], acc => if acc.isEmpty then [] else [String.mk acc.reverse]
  | c :: rest, acc =>
    if c = '\n' then String.mk acc.reverse :: splitlinesAux rest []
    else splitlinesAux rest (c :: acc)

/-- Python str.splitlines() restricted to texts whose only line-boundary
character is the newline: [] for "", and a trailing newline adds no empty
final line.  Written directly on the character list so that it is
kernel-computable. -/
def splitlines (s : String) : List String :=
  splitlinesAux s.data []

/-- InboxAnalyzer.find_common_sections: matching blocks of size at least
min_section_lines (default 10), reported as (start, end, joined text) ranges
into lines1. -/
def find_common_sections (lines1 lines2 : List String)
    (minSectionLines : Nat := 10) : List (Nat × Nat × String) :=
  ((getMatchingBlocks lines1 lines2 true).filter
      (fun m => decide (minSectionLines ≤ m.size))).map
    (fun m => (m.a, m.a + m.size,
      String.intercalate "\n" ((lines1.drop m.a).take m.size)))

/-- The `for i, line in enumerate(lines): if i not in processed: out.append(line)`
loop of DocumentMerger.find_unique_sections. -/
def pickUnique (s : Finset Nat) : Nat → List String → List String
  | _, [] => []
  | i, line :: rest =>
    if i ∈ s then pickUnique s (i + 1) rest else line :: pickUnique s (i + 1) rest

/-- The processed-index set of DocumentMerger.find_unique_sections: all
positions (on the side selected by proj) covered by a positive-size matching
block. -/
def processedSet (proj : MB → Nat) (blocks : List MB) : Finset Nat :=
  blocks.foldl
    (fun st m => if 0 < m.size then st ∪ Finset.Ico (proj m) (proj m + m.size) else st)
    ∅

/-- The common-lines accumulator of DocumentMerger.find_unique_sections:
lines1[m.a : m.a + m.size] for each positive-size matching block, in block
order. -/
def commonLinesOf (lines1 : List String) (blocks : List MB) : List String :=
  blocks.foldl
    (fun acc m => if 0 < m.size then acc ++ (lines1.drop m.a).take m.size else acc)
    []

/-- DocumentMerger.find_unique_sections: (unique_to_file1, common,
unique_to_file2). -/
def find_unique_sections (lines1 lines2 : List String) :
    List String × List String × List String :=
  let blocks := getMatchingBlocks lines1 lines2 true
  (pickUnique (processedSet MB.a blocks) 0 lines1,
   commonLinesOf lines1 blocks,
   pickUnique (processedSet MB.b blocks) 0 lines2)

/-! The analyzer's pairwise scan (InboxAnalyzer.find_similar_files).  A loaded
file is modelled by the fields of the FileInfo dataclass that the scan reads;
the md5 hashing done at load time is kept abstract as the stored hash and
line-hash strings. -/

/-- The fields of analyze_inbox_duplicates.FileInfo used by the pairwise
scan. -/
structure AFile where
  name : String
  hash : String
  content : String
  lines : List String
  line_hashes : List String
deriving DecidableEq

/-- analyze_inbox_duplicates.SimilarityMatch. -/
structure SimMatch where
  file1 : String
  file2 : String
  similarity : ℚ
  line_overlap : ℚ
  common_lines : Nat
  unique_common_lines : Nat
  total_lines : Nat
  duplicate_sections : List (Nat × Nat × String)
deriving DecidableEq

/-- The SimilarityMatch record built for a qualifying pair in
InboxAnalyzer.find_similar_files. -/
def mkSimMatch (f1 f2 : AFile) : SimMatch :=
  let sections := find_common_sections f1.lines f2.lines 10
  { file1 := f1.name
    file2 := f2.name
    similarity := calculate_similarity f1.content f2.content
    line_overlap := (calculate_line_overlap f1.line_hashes f2.line_hashes).1
    common_lines := (sections.map (fun s => s.2.1 - s.1)).sum
    unique_common_lines := (calculate_line_overlap f1.line_hashes f2.line_hashes).2
    total_lines := max f1.lines.length f2.lines.length
    duplicate_sections := sections }

/-- The body of the inner comparison loop: skip exact-hash pairs, score the
rest, and record a match when either metric meets the threshold. -/
def pairMatch (t : ℚ) (f1 f2 : AFile) : Option SimMatch :=
  if f1.hash = f2.hash then none
  else
    if t ≤ calculate_similarity f1.content f2.content ∨
        t ≤ (calculate_line_overlap f1.line_hashes f2.line_hashes).1 then
      some (mkSimMatch f1 f2)
    else none

/-- The i < j double loop of InboxAnalyzer.find_similar_files, in iteration
order. -/
def fsfPairs (t : ℚ) : List AFile → List SimMatch
  | [] => []
  | f1 :: rest => rest.filterMap (pairMatch t f1) ++ fsfPairs t rest

/-- InboxAnalyzer.find_similar_files: all qualifying pairs, then the final
stable sort by line overlap, descending. -/
def find_similar_files (files : List AFile) (t : ℚ) : List SimMatch :=
  (fsfPairs t files).mergeSort (fun x y => decide (y.line_overlap ≤ x.line_overlap))

/-- The inbox-existence check of analyze_inbox_duplicates.main: on a missing
inbox directory it prints an error naming the path and returns exit status 1
without constructing or running the analyzer; otherwise the analysis runs and
main returns 0.  Result: (printed error lines, exit status, analysis ran). -/
def analyzer_main (inboxExists : Bool) (inboxPath : String) :
    List String × Nat × Bool :=
  if inboxExists then ([], 0, true)
  else (["Error: Inbox path does not exist: " ++ inboxPath], 1, false)

/-! The merger (scripts/docs/merge_duplicates.py).  The inbox directory is
modelled as an association list from file name to file content; all names the
merger touches live directly in the inbox directory, so the constant
inbox-path prefix is dropped. -/

/-- The filesystem visible to the merger: file name to content. -/
abbrev FS : Type := List (String × String)

/-- File-content lookup (Path.open for reading). -/
def fsLookup (fs : FS) (name : String) : Option String :=
  List.lookup name fs

/-- Path.unlink: remove the named file. -/
def fsErase (fs : FS) (name : String) : FS :=
  List.filter (fun p => decide (p.1 ≠ name)) fs

/-- open(.., "w").write: create or overwrite the named file. -/
def fsWrite (fs : FS) (name content : String) : FS :=
  (name, content) :: fsErase fs name

/-- DocumentMerger.read_file: (content, content.splitlines()); none models the
uncaught OSError that a missing file raises in Python. -/
def read_file (fs : FS) (filename : String) : Option (String × List String) :=
  (fsLookup fs filename).map (fun c => (c, splitlines c))

/-- Concatenation of `line + "\n"` over a line group, as the merge builders
emit it. -/
def linesBlock (ls : List String) : String :=
  String.join (ls.map (fun l => l ++ "\n"))

/-- DocumentMerger.merge_two_files: read both files, split into
unique/common/unique, and assemble the labelled merged document. -/
def merge_two_files (fs : FS) (file1 file2 : String) : Option String := do
  let r1 ← read_file fs file1
  let r2 ← read_file fs file2
  let u := find_unique_sections r1.2 r2.2
  pure (
    "# Merged Document: " ++ file1 ++ " + " ++ file2 ++ "\n" ++
    "*This document combines content from multiple sources*\n\n" ++
    "---\n\n" ++
    (if u.2.1 ≠ [] then
      "## Common Content\n\n" ++ linesBlock u.2.1 ++ "\n---\n\n" else "") ++
    (if u.1 ≠ [] then
      "## Additional Content from " ++ file1 ++ "\n\n" ++ linesBlock u.1 ++
      "\n---\n\n" else "") ++
    (if u.2.2 ≠ [] then
      "## Additional Content from " ++ file2 ++ "\n\n" ++ linesBlock u.2.2 ++
      "\n" else ""))

/-- The `for i in range(2, len(files))` fold of
DocumentMerger.merge_multiple_files; allFiles is the full list (for the
header), i the Python loop index, result the accumulated merged text. -/
def mmfLoop (fs : FS) (allFiles : List String) :
    List String → Nat → String → Option String
  | [], _, result => some result
  | f :: more, i, result => do
    let tempLines := splitlines result
    let rNext ← read_file fs f
    let u := find_unique_sections tempLines rNext.2
    mmfLoop fs allFiles more (i + 1) (
      "# Merged Document: " ++ String.intercalate ", " (allFiles.take (i + 1)) ++ "\n" ++
      "*Combined from " ++ toString (i + 1) ++ " sources*\n\n" ++
      "---\n\n" ++
      (if u.2.1 ≠ [] then
        "## Common Content\n\n" ++ linesBlock u.2.1 ++ "\n---\n\n" else "") ++
      (if u.1 ≠ [] then
        "## Additional Content from Previous Merge\n\n" ++ linesBlock u.1 ++
        "\n---\n\n" else "") ++
      (if u.2.2 ≠ [] then
        "## Additional Content from " ++ f ++ "\n\n" ++ linesBlock u.2.2 ++
        "\n" else ""))

/-- DocumentMerger.merge_multiple_files: "" for no files, the raw content for
one file, otherwise merge the first two and fold in the rest. -/
def merge_multiple_files (fs : FS) (files : List String) : Option String :=
  match files with
  | [] => some ""
  | [f] => (read_file fs f).map (fun r => r.1)
  | f1 :: f2 :: rest => do
    let first ← merge_two_files fs f1 f2
    mmfLoop fs (f1 :: f2 :: rest) rest 2 first

/-- pathlib.PurePath.stem: the final component without its last suffix.  For
the flat names the merger handles: drop from the last dot on, unless there is
no dot or the only remaining prefix is empty (leading-dot names keep their
full name).  Written on the character list so that it is kernel-computable. -/
def pathStem (name : String) : String :=
  match (name.data.reverse).dropWhile (fun c => !(c == '.')) with
  | [] => name
  | _ :: pre => if pre.isEmpty then name else String.mk pre.reverse

/-- DocumentMerger.suggest_merge_name: first file's stem plus "-merged.md".
(Python indexes basenames[0]; the merger only calls this with two files.) -/
def suggest_merge_name (files : List String) : String :=
  pathStem (files.headD "") ++ "-merged.md"

/-- One analysis-report exact-duplicate group (the "files" list of a
serialized group). -/
structure DupGroup where
  files : List String
deriving DecidableEq

/-- One analysis-report similar pair (the fields of a serialized similar_pairs
entry that the merger reads). -/
structure SimPair where
  file1 : String
  file2 : String
  similarity : ℚ
  line_overlap : ℚ
deriving DecidableEq

/-- The analysis report as the merger consumes it. -/
structure Report where
  exact_duplicates : List DupGroup
  similar_pairs : List SimPair
deriving DecidableEq

/-- The merger's observable actions, mirroring its prints: keep/delete intents
for exact-duplicate groups, the skip line for an already-merged pair, the
"Merged file" line for a processed pair, and the actual created/deleted
mutations (live mode only). -/
inductive MAction where
  | keep (filename : String)
  | deleteIntent (filenames : List String)
  | deleted (filename : String)
  | pairSkipped (file1 file2 : String)
  | pairMerge (file1 file2 mergedName : String)
  | created (filename : String)
deriving DecidableEq

/-- The `for filename in delete: if file_path.exists(): file_path.unlink()`
loops of the merger. -/
def deleteFiles (fs : FS) : List String → List MAction × FS
  | [] => ([], fs)
  | f :: rest =>
    if (fsLookup fs f).isSome then
      let r := deleteFiles (fsErase fs f) rest
      (MAction.deleted f :: r.1, r.2)
    else deleteFiles fs rest

/-- DocumentMerger.process_exact_duplicates: for each group keep the first
listed file and delete the rest; deletions only outside dry-run.  (A group
with an empty files list cannot occur in an analyzer-produced report, where
every group has at least two members; Python would raise on it, here it is
skipped.) -/
def processExactDuplicates (dry : Bool) (fs : FS) :
    List DupGroup → List MAction × FS
  | [] => ([], fs)
  | g :: gs =>
    match g.files with
    | [] => processExactDuplicates dry fs gs
    | keepF :: deleteFs =>
      let intents := [MAction.keep keepF, MAction.deleteIntent deleteFs]
      if dry then
        let r := processExactDuplicates dry fs gs
        (intents ++ r.1, r.2)
      else
        let d := deleteFiles fs deleteFs
        let r := processExactDuplicates dry d.2 gs
        (intents ++ d.1 ++ r.1, r.2)

/-- The candidate loop of DocumentMerger.process_similar_files: merged is the
merged_files set (only ever extended outside dry-run, exactly as in the
source); a failed read (pair file missing) aborts the run like Python's
uncaught exception, the third component records completion. -/
def psfLoop (dry : Bool) : FS → List String → List SimPair →
    List MAction × FS × Bool
  | fs, _, [] => ([], fs, true)
  | fs, merged, p :: rest =>
    if p.file1 ∈ merged ∨ p.file2 ∈ merged then
      let r := psfLoop dry fs merged rest
      (MAction.pairSkipped p.file1 p.file2 :: r.1, r.2)
    else
      match merge_two_files fs p.file1 p.file2 with
      | none => ([], fs, false)
      | some mergedContent =>
        let mname := suggest_merge_name [p.file1, p.file2]
        if dry then
          let r := psfLoop dry fs merged rest
          (MAction.pairMerge p.file1 p.file2 mname :: r.1, r.2)
        else
          let fs1 := fsWrite fs mname mergedContent
          let d := deleteFiles fs1 [p.file1, p.file2]
          let r := psfLoop dry d.2 (merged ++ [p.file1, p.file2]) rest
          (MAction.pairMerge p.file1 p.file2 mname ::
            MAction.created mname :: d.1 ++ r.1, r.2)

/-- DocumentMerger.process_similar_files: filter the report's pairs by the
minimum line overlap, then run the candidate loop with an empty merged set. -/
def processSimilarFiles (dry : Bool) (minOverlap : ℚ) (pairs : List SimPair)
    (fs : FS) : List MAction × FS × Bool :=
  psfLoop dry fs [] (pairs.filter (fun p => decide (minOverlap ≤ p.line_overlap)))

/-- DocumentMerger.run after a successfully loaded report: exact duplicates
first, then similar pairs. -/
def merger_run_steps (dry : Bool) (minOverlap : ℚ) (rep : Report) (fs : FS) :
    List MAction × FS × Bool :=
  let e := processExactDuplicates dry fs rep.exact_duplicates
  let s := processSimilarFiles dry minOverlap rep.similar_pairs e.2
  (e.1 ++ s.1, s.2.1, s.2.2)

/-- DocumentMerger.load_analysis followed by run: a missing report file prints
two lines (the first naming the path) and exits with status 1 before touching
any document; otherwise the merge runs and the process exits 0.
Result: (error lines, exit status, final filesystem). -/
def merger_run (report : Option Report) (analysisPath : String) (dry : Bool)
    (minOverlap : ℚ) (fs : FS) : List String × Nat × FS :=
  match report with
  | none =>
    (["Error: Analysis file not found: " ++ analysisPath,
      "Run 'task docs:analyze-inbox' first to generate analysis"], 1, fs)
  | some rep => ([], 0, (merger_run_steps dry minOverlap rep fs).2.1)

/-! Spec-side comparison definitions and concrete fixtures used to settle the
claims. -/

/-- Spec-side variant for the auto-junk-free claim (spec 4.3: the block
decomposition is "auto-junk-free — every element is treated as significant"):
the same extraction with autojunk disabled, to be compared with the source's
default autojunk = True. -/
def getMatchingBlocks_nojunk [DecidableEq α] [Inhabited α] (a b : List α) :
    List MB :=
  getMatchingBlocks a b false

/-- Spec-side variant of find_common_sections over the auto-junk-free
decomposition. -/
def find_common_sections_nojunk (lines1 lines2 : List String)
    (minSectionLines : Nat := 10) : List (Nat × Nat × String) :=
  ((getMatchingBlocks_nojunk lines1 lines2).filter
      (fun m => decide (minSectionLines ≤ m.size))).map
    (fun m => (m.a, m.a + m.size,
      String.intercalate "\n" ((lines1.drop m.a).take m.size)))

/-- Spec-side variant of find_unique_sections over the auto-junk-free
decomposition. -/
def find_unique_sections_nojunk (lines1 lines2 : List String) :
    List String × List String × List String :=
  let blocks := getMatchingBlocks_nojunk lines1 lines2
  (pickUnique (processedSet MB.a blocks) 0 lines1,
   commonLinesOf lines1 blocks,
   pickUnique (processedSet MB.b blocks) 0 lines2)

/-- The value that find_longest_match's seed phase associates with cell
(i, j): the length of the seeded match run ending at a[..i] / b[..j], i.e.
Python's newj2len[j] after outer iteration i.  It is positive exactly when j
is listed in b2j for a[i], and then extends the run of (i-1, j-1). -/
def runv [DecidableEq α] [Inhabited α] (l : List α) (bj2 : α → List Nat)
    (i j : Nat) : Nat :=
  if j ∈ bj2 (l.getD i default) then
    (if h : i = 0 ∨ j = 0 then 0 else runv l bj2 (i - 1) (j - 1)) + 1
  else 0
termination_by i
decreasing_by omega

/-- The matching blocks of a decomposition are chained: starting at or after
(la0, lb0), each block lies fully inside the rectangle bounded by (ha, hb),
and the next block starts at or after the end of the previous one on both
sides.  Zero-size blocks (the terminator) are allowed. -/
def Chained : Nat → Nat → Nat → Nat → List MB → Prop
  | _, _, _, _, [] => True
  | la0, lb0, ha, hb, m :: ms =>
    la0 ≤ m.a ∧ lb0 ≤ m.b ∧ m.a + m.size ≤ ha ∧ m.b + m.size ≤ hb ∧
    Chained (m.a + m.size) (m.b + m.size) ha hb ms

/-- One-sided view of a chain: (start, size) intervals in ascending order,
all ending at or before hi. -/
def PChain : Nat → Nat → List (Nat × Nat) → Prop
  | p, hi, [] => p ≤ hi
  | p, hi, q :: rest => p ≤ q.1 ∧ PChain (q.1 + q.2) hi rest

/-- The two input documents of a pairMerge log entry (the merge's consumed
sources); empty for every other action. -/
def mergeInputsOf : MAction → List String
  | MAction.pairMerge f1 f2 _ => [f1, f2]
  | _ => []

/-- No document is consumed as a merge input by two different pair merges of
the same log. -/
def NoReuse (log : List MAction) : Prop :=
  List.Pairwise (fun x y => ∀ f, f ∈ mergeInputsOf x → f ∉ mergeInputsOf y) log

instance (log : List MAction) : Decidable (NoReuse log) :=
  List.instDecidablePairwise log

/-- Fixture: an inbox where the computed merge output name a-merged.md already
exists before the run. -/
def collisionFS : FS :=
  [("a.md", "x\ny"), ("b.md", "x\nz"), ("a-merged.md", "OLD")]

/-- Fixture: the analysis report pairing a.md with b.md at 50% line overlap. -/
def collisionReport : Report :=
  { exact_duplicates := []
    similar_pairs := [⟨"a.md", "b.md", mkRat 1 2, mkRat 1 2⟩] }

/-- Fixture: an inbox with three mutually overlapping documents. -/
def overlapFS : FS :=
  [("a.md", "x\ny"), ("b.md", "x\nz"), ("c.md", "x\nw")]

/-- Fixture: a report listing two candidate pairs that share a.md. -/
def overlapReport : Report :=
  { exact_duplicates := []
    similar_pairs := [⟨"a.md", "b.md", mkRat 1 2, mkRat 1 2⟩,
      ⟨"a.md", "c.md", mkRat 1 2, mkRat 1 2⟩] }

/-- Fixture: an inbox for exercising the amended overwrite behaviour. -/
def plainFS : FS := [("a.md", "x"), ("b.md", "y")]

/-- Fixture lines whose second sequence is 200 lines long with a quadruply
repeated line "x"; with autojunk that line is popular (4 > 200 // 100 + 1) and
cannot seed a match. -/
def junkLinesA : List String := ["u", "x", "v"]

/-- See junkLinesA. -/
def junkLinesB : List String :=
  (List.range 98).map (fun i => "f" ++ toString i) ++ ["x", "x", "x", "x"] ++
  (List.range 98).map (fun i => "g" ++ toString i)

/-- Fixture: two one-line analyzer files with equal content but distinct
hashes. -/
def fileA : AFile :=
  { name := "a.md", hash := "h1", content := "x", lines := ["x"]
    line_hashes := ["hx"] }

/-- See fileA. -/
def fileB : AFile :=
  { name := "b.md", hash := "h2", content := "x", lines := ["x"]
    line_hashes := ["hx"] }

/-! Helper invariants of the SequenceMatcher embedding: all loop results
stay inside the requested rectangle, and fuel choices are immaterial. -/

theorem extBack_fuel [DecidableEq α] [Inhabited α] (a b : List α) (alo blo : Nat) :
    ∀ (f g bi bj bs : Nat), bi ≤ f → bi ≤ g →
      extBack a b alo blo f bi bj bs = extBack a b alo blo g bi bj bs := by
  intro f
  induction f with
  | zero =>
    intro g bi bj bs hf _
    interval_cases bi
    cases g with
    | zero => rfl
    | succ g =>
      simp only [extBack]
      rw [if_neg]
      omega
  | succ f ih =>
    intro g bi bj bs hf hg
    cases g with
    | zero =>
      interval_cases bi
      simp only [extBack]
      rw [if_neg]
      omega
    | succ g =>
      simp only [extBack]
      by_cases hc : alo < bi ∧ blo < bj ∧ a.getD (bi - 1) default = b.getD (bj - 1) default
      · rw [if_pos hc, if_pos hc]
        exact ih g (bi - 1) (bj - 1) (bs + 1) (by omega) (by omega)
      · rw [if_neg hc, if_neg hc]

theorem extFwd_fuel [DecidableEq α] [Inhabited α] (a b : List α) (ahi bhi : Nat) :
    ∀ (f g bi bj bs : Nat), ahi - (bi + bs) ≤ f → ahi - (bi + bs) ≤ g →
      extFwd a b ahi bhi f bi bj bs = extFwd a b ahi bhi g bi bj bs := by
  intro f
  induction f with
  | zero =>
    intro g bi bj bs hf _
    cases g with
    | zero => rfl
    | succ g =>
      simp only [extFwd]
      rw [if_neg]
      omega
  | succ f ih =>
    intro g bi bj bs hf hg
    cases g with
    | zero =>
      simp only [extFwd]
      rw [if_neg]
      omega
    | succ g =>
      simp only [extFwd]
      by_cases hc : bi + bs < ahi ∧ bj + bs < bhi ∧
          a.getD (bi + bs) default = b.getD (bj + bs) default
      · rw [if_pos hc, if_pos hc]
        exact ih g bi bj (bs + 1) (by omega) (by omega)
      · rw [if_neg hc, if_neg hc]

theorem innerLoop_inv (alo ahi : Nat) (j2len : Nat → Nat) (blo bhi i : Nat)
    (hi1 : alo ≤ i) (hi2 : i < ahi)
    (hJ1 : ∀ j', alo + j2len j' ≤ i)
    (hJ2 : ∀ j', 0 < j2len j' → blo + j2len j' ≤ j' + 1 ∧ j' < bhi) :
    ∀ (js : List Nat) (new : Nat → Nat) (bi bj bs : Nat),
      (∀ j', alo + new j' ≤ i + 1) →
      (∀ j', 0 < new j' → blo + new j' ≤ j' + 1 ∧ j' < bhi) →
      alo ≤ bi → bi + bs ≤ ahi → blo ≤ bj → bj + bs ≤ bhi →
      (∀ j', alo + (innerLoop j2len blo bhi i js new bi bj bs).1 j' ≤ i + 1) ∧
      (∀ j', 0 < (innerLoop j2len blo bhi i js new bi bj bs).1 j' →
        blo + (innerLoop j2len blo bhi i js new bi bj bs).1 j' ≤ j' + 1 ∧ j' < bhi) ∧
      alo ≤ (innerLoop j2len blo bhi i js new bi bj bs).2.1 ∧
      (innerLoop j2len blo bhi i js new bi bj bs).2.1 +
        (innerLoop j2len blo bhi i js new bi bj bs).2.2.2 ≤ ahi ∧
      blo ≤ (innerLoop j2len blo bhi i js new bi bj bs).2.2.1 ∧
      (innerLoop j2len blo bhi i js new bi bj bs).2.2.1 +
        (innerLoop j2len blo bhi i js new bi bj bs).2.2.2 ≤ bhi := by
  intro js
  induction js with
  | nil =>
    intro new bi bj bs h1 h2 h3 h4 h5 h6
    simp only [innerLoop]
    exact ⟨h1, h2, h3, h4, h5, h6⟩
  | cons j js ih =>
    intro new bi bj bs h1 h2 h3 h4 h5 h6
    simp only [innerLoop]
    by_cases hjlo : j < blo
    · simp only [if_pos hjlo]
      exact ih new bi bj bs h1 h2 h3 h4 h5 h6
    · simp only [if_neg hjlo]
      by_cases hjhi : bhi ≤ j
      · simp only [if_pos hjhi]
        exact ⟨h1, h2, h3, h4, h5, h6⟩
      · simp only [if_neg hjhi]
        have hkb : alo + ((if j = 0 then 0 else j2len (j - 1)) + 1) ≤ i + 1 := by
          by_cases hj0 : j = 0
          · simp [hj0]; omega
          · simp only [if_neg hj0]
            have := hJ1 (j - 1)
            omega
        have hkj : blo + ((if j = 0 then 0 else j2len (j - 1)) + 1) ≤ j + 1 := by
          by_cases hj0 : j = 0
          · simp only [if_pos hj0]
            omega
          · simp only [if_neg hj0]
            by_cases hz : 0 < j2len (j - 1)
            · have := (hJ2 (j - 1) hz).1
              omega
            · omega
        have hnew' : ∀ j', alo +
            (Function.update new j ((if j = 0 then 0 else j2len (j - 1)) + 1)) j' ≤ i + 1 := by
          intro j'
          rw [Function.update_apply]
          by_cases hjj : j' = j
          · simp only [if_pos hjj]; exact hkb
          · simp only [if_neg hjj]; exact h1 j'
        have hnew2' : ∀ j', 0 <
            (Function.update new j ((if j = 0 then 0 else j2len (j - 1)) + 1)) j' →
            blo + (Function.update new j ((if j = 0 then 0 else j2len (j - 1)) + 1)) j'
              ≤ j' + 1 ∧ j' < bhi := by
          intro j' hz
          rw [Function.update_apply] at hz ⊢
          by_cases hjj : j' = j
          · simp only [if_pos hjj]
            subst hjj
            exact ⟨hkj, by omega⟩
          · simp only [if_neg hjj] at hz ⊢
            exact h2 j' hz
        by_cases hbs : bs < (if j = 0 then 0 else j2len (j - 1)) + 1
        · simp only [if_pos hbs]
          exact ih _ _ _ _ hnew' hnew2' (by omega) (by omega) (by omega) (by omega)
        · simp only [if_neg hbs]
          exact ih _ _ _ _ hnew' hnew2' h3 h4 h5 h6

theorem seedLoop_inv [DecidableEq α] [Inhabited α] (a : List α) (bj2 : α → List Nat)
    (alo ahi blo bhi : Nat) :
    ∀ (n t : Nat) (f : Nat → Nat) (bi bj bs : Nat),
      alo ≤ t → t + n ≤ ahi →
      (∀ j', alo + f j' ≤ t) →
      (∀ j', 0 < f j' → blo + f j' ≤ j' + 1 ∧ j' < bhi) →
      alo ≤ bi → bi + bs ≤ ahi → blo ≤ bj → bj + bs ≤ bhi →
      alo ≤ (seedLoop a bj2 blo bhi (List.range' t n) f bi bj bs).1 ∧
      (seedLoop a bj2 blo bhi (List.range' t n) f bi bj bs).1 +
        (seedLoop a bj2 blo bhi (List.range' t n) f bi bj bs).2.2 ≤ ahi ∧
      blo ≤ (seedLoop a bj2 blo bhi (List.range' t n) f bi bj bs).2.1 ∧
      (seedLoop a bj2 blo bhi (List.range' t n) f bi bj bs).2.1 +
        (seedLoop a bj2 blo bhi (List.range' t n) f bi bj bs).2.2 ≤ bhi := by
  intro n
  induction n with
  | zero =>
    intro t f bi bj bs _ _ _ _ h5 h6 h7 h8
    simp only [List.range'_zero, seedLoop]
    exact ⟨h5, h6, h7, h8⟩
  | succ n ih =>
    intro t f bi bj bs h1 h2 h3 h4 h5 h6 h7 h8
    rw [List.range'_succ]
    simp only [seedLoop]
    have hinner := innerLoop_inv alo ahi f blo bhi t h1 (by omega) h3 h4
      (bj2 (a.getD t default)) (fun _ => 0) bi bj bs
      (fun j' => by show alo + 0 ≤ t + 1; omega)
      (fun j' hz => by simp only [Nat.lt_irrefl] at hz) h5 h6 h7 h8
    obtain ⟨g1, g2, g3, g4, g5, g6⟩ := hinner
    exact ih (t + 1) _ _ _ _ (by omega) (by omega) (fun j' => g1 j') g2 g3 g4 g5 g6

theorem extBack_inv [DecidableEq α] [Inhabited α] (a b : List α) (alo blo : Nat) :
    ∀ (fuel bi bj bs : Nat) (ahi bhi : Nat),
      alo ≤ bi → bi + bs ≤ ahi → blo ≤ bj → bj + bs ≤ bhi →
      alo ≤ (extBack a b alo blo fuel bi bj bs).1 ∧
      (extBack a b alo blo fuel bi bj bs).1 +
        (extBack a b alo blo fuel bi bj bs).2.2 ≤ ahi ∧
      blo ≤ (extBack a b alo blo fuel bi bj bs).2.1 ∧
      (extBack a b alo blo fuel bi bj bs).2.1 +
        (extBack a b alo blo fuel bi bj bs).2.2 ≤ bhi := by
  intro fuel
  induction fuel with
  | zero =>
    intro bi bj bs ahi bhi h1 h2 h3 h4
    exact ⟨h1, h2, h3, h4⟩
  | succ fuel ih =>
    intro bi bj bs ahi bhi h1 h2 h3 h4
    simp only [extBack]
    by_cases hc : alo < bi ∧ blo < bj ∧ a.getD (bi - 1) default = b.getD (bj - 1) default
    · rw [if_pos hc]
      exact ih (bi - 1) (bj - 1) (bs + 1) ahi bhi
        (by omega) (by omega) (by omega) (by omega)
    · rw [if_neg hc]
      exact ⟨h1, h2, h3, h4⟩

theorem extFwd_le [DecidableEq α] [Inhabited α] (a b : List α) (ahi bhi : Nat) :
    ∀ (fuel bi bj bs : Nat), bi + bs ≤ ahi → bj + bs ≤ bhi →
      bi + extFwd a b ahi bhi fuel bi bj bs ≤ ahi ∧
      bj + extFwd a b ahi bhi fuel bi bj bs ≤ bhi := by
  intro fuel
  induction fuel with
  | zero =>
    intro bi bj bs h1 h2
    exact ⟨h1, h2⟩
  | succ fuel ih =>
    intro bi bj bs h1 h2
    simp only [extFwd]
    by_cases hc : bi + bs < ahi ∧ bj + bs < bhi ∧
        a.getD (bi + bs) default = b.getD (bj + bs) default
    · rw [if_pos hc]
      exact ih bi bj (bs + 1) (by omega) (by omega)
    · rw [if_neg hc]
      exact ⟨h1, h2⟩

/-- find_longest_match always returns a block inside the requested rectangle. -/
theorem findLongestMatch_range [DecidableEq α] [Inhabited α] (a b : List α)
    (bj2 : α → List Nat) (alo ahi blo bhi : Nat) (ha : alo ≤ ahi) (hb : blo ≤ bhi) :
    alo ≤ (findLongestMatch a b bj2 alo ahi blo bhi).a ∧
    (findLongestMatch a b bj2 alo ahi blo bhi).a +
      (findLongestMatch a b bj2 alo ahi blo bhi).size ≤ ahi ∧
    blo ≤ (findLongestMatch a b bj2 alo ahi blo bhi).b ∧
    (findLongestMatch a b bj2 alo ahi blo bhi).b +
      (findLongestMatch a b bj2 alo ahi blo bhi).size ≤ bhi := by
  have hseed := seedLoop_inv a bj2 alo ahi blo bhi (ahi - alo) alo (fun _ => 0)
    alo blo 0
    (le_refl _) (by omega)
    (fun j' => by show alo + 0 ≤ alo; omega)
    (fun j' hz => by simp only [Nat.lt_irrefl] at hz)
    (le_refl _) (by omega) (le_refl _) (by omega)
  set s := seedLoop a bj2 blo bhi (List.range' alo (ahi - alo)) (fun _ => 0) alo blo 0
    with hs
  have hback := extBack_inv a b alo blo s.1 s.1 s.2.1 s.2.2 ahi bhi
    hseed.1 hseed.2.1 hseed.2.2.1 hseed.2.2.2
  set e := extBack a b alo blo s.1 s.1 s.2.1 s.2.2 with he
  have hfwd := extFwd_le a b ahi bhi ahi e.1 e.2.1 e.2.2 hback.2.1 hback.2.2.2
  exact ⟨hback.1, hfwd.1, hback.2.2.1, hfwd.2⟩

theorem mbRec_fuel [DecidableEq α] [Inhabited α] (a b : List α) (bj2 : α → List Nat) :
    ∀ (f g alo ahi blo bhi : Nat), alo ≤ ahi → blo ≤ bhi →
      ahi - alo < f → ahi - alo < g →
      mbRec a b bj2 f alo ahi blo bhi = mbRec a b bj2 g alo ahi blo bhi := by
  intro f
  induction f with
  | zero =>
    intro g alo ahi blo bhi _ _ hf _
    omega
  | succ f ih =>
    intro g alo ahi blo bhi ha hb hf hg
    cases g with
    | zero => omega
    | succ g =>
      have hr := findLongestMatch_range a b bj2 alo ahi blo bhi ha hb
      simp only [mbRec]
      by_cases hk : 0 < (findLongestMatch a b bj2 alo ahi blo bhi).size
      · rw [if_pos hk, if_pos hk]
        congr 1
        · congr 1
          by_cases h2 : alo < (findLongestMatch a b bj2 alo ahi blo bhi).a ∧
              blo < (findLongestMatch a b bj2 alo ahi blo bhi).b
          · rw [if_pos h2, if_pos h2]
            exact ih g alo (findLongestMatch a b bj2 alo ahi blo bhi).a
              blo (findLongestMatch a b bj2 alo ahi blo bhi).b
              (by omega) (by omega) (by omega) (by omega)
          · rw [if_neg h2, if_neg h2]
        · by_cases h3 : (findLongestMatch a b bj2 alo ahi blo bhi).a +
                (findLongestMatch a b bj2 alo ahi blo bhi).size < ahi ∧
              (findLongestMatch a b bj2 alo ahi blo bhi).b +
                (findLongestMatch a b bj2 alo ahi blo bhi).size < bhi
          · rw [if_pos h3, if_pos h3]
            exact ih g
              ((findLongestMatch a b bj2 alo ahi blo bhi).a +
                (findLongestMatch a b bj2 alo ahi blo bhi).size) ahi
              ((findLongestMatch a b bj2 alo ahi blo bhi).b +
                (findLongestMatch a b bj2 alo ahi blo bhi).size) bhi
              (by omega) (by omega) (by omega) (by omega)
          · rw [if_neg h3, if_neg h3]
      · rw [if_neg hk, if_neg hk]


/-! Association-list filesystem lemmas. -/

theorem lookup_cons_self (k v : String) (l : List (String × String)) :
    List.lookup k ((k, v) :: l) = some v := by
  simp [List.lookup]

theorem lookup_cons_ne (k v m : String) (l : List (String × String)) (h : m ≠ k) :
    List.lookup m ((k, v) :: l) = List.lookup m l := by
  simp [List.lookup, beq_eq_false_iff_ne.mpr h]

theorem fsLookup_fsErase_self (fs : FS) (n : String) :
    fsLookup (fsErase fs n) n = none := by
  induction fs with
  | nil => rfl
  | cons p fs ih =>
    obtain ⟨k, v⟩ := p
    by_cases h : k = n
    · simpa [fsErase, List.filter_cons, h] using ih
    · have he : fsErase ((k, v) :: fs) n = (k, v) :: fsErase fs n := by
        simp [fsErase, List.filter_cons, h]
      rw [he]
      show List.lookup n ((k, v) :: fsErase fs n) = none
      rw [lookup_cons_ne k v n _ (Ne.symm h)]
      exact ih

theorem fsLookup_fsErase_ne (fs : FS) (n m : String) (h : m ≠ n) :
    fsLookup (fsErase fs n) m = fsLookup fs m := by
  induction fs with
  | nil => rfl
  | cons p fs ih =>
    obtain ⟨k, v⟩ := p
    by_cases hp : k = n
    · have he : fsErase ((k, v) :: fs) n = fsErase fs n := by
        simp [fsErase, List.filter_cons, hp]
      rw [he]
      show fsLookup (fsErase fs n) m = List.lookup m ((k, v) :: fs)
      rw [lookup_cons_ne k v m fs (by rw [hp]; exact h)]
      exact ih
    · have he : fsErase ((k, v) :: fs) n = (k, v) :: fsErase fs n := by
        simp [fsErase, List.filter_cons, hp]
      rw [he]
      by_cases hm : m = k
      · subst hm
        show List.lookup m ((m, v) :: fsErase fs n) = List.lookup m ((m, v) :: fs)
        rw [lookup_cons_self, lookup_cons_self]
      · show List.lookup m ((k, v) :: fsErase fs n) = List.lookup m ((k, v) :: fs)
        rw [lookup_cons_ne k v m _ hm, lookup_cons_ne k v m fs hm]
        exact ih

theorem fsLookup_fsWrite_self (fs : FS) (n c : String) :
    fsLookup (fsWrite fs n c) n = some c := by
  show List.lookup n ((n, c) :: fsErase fs n) = some c
  exact lookup_cons_self n c _

theorem fsLookup_fsWrite_ne (fs : FS) (n c m : String) (h : m ≠ n) :
    fsLookup (fsWrite fs n c) m = fsLookup fs m := by
  show List.lookup m ((n, c) :: fsErase fs n) = fsLookup fs m
  rw [lookup_cons_ne n c m _ h]
  exact fsLookup_fsErase_ne fs n m h

/-! Claim theorems. -/

/-- C6: calculate_line_overlap returns the size of the intersection of the two
hash sets as the common count, the ratio common / max(|set1|, |set2|) (and
(0.0, 0) when both sets are empty), is symmetric, and is insensitive to
repeated occurrences of a line within one document. -/
theorem C6_line_overlap (A B : List String) :
    (calculate_line_overlap A B).2 = (A.toFinset ∩ B.toFinset).card ∧
    calculate_line_overlap A B = calculate_line_overlap B A ∧
    (A.toFinset = ∅ → B.toFinset = ∅ → calculate_line_overlap A B = (0, 0)) ∧
    (¬(A.toFinset = ∅ ∧ B.toFinset = ∅) →
      (calculate_line_overlap A B).1 =
        ((A.toFinset ∩ B.toFinset).card : ℚ) /
          ((max A.toFinset.card B.toFinset.card : Nat) : ℚ)) ∧
    (∀ x, x ∈ A → calculate_line_overlap (x :: A) B = calculate_line_overlap A B) := by
  refine ⟨?_, ?_, ?_, ?_, ?_⟩
  · by_cases h : max A.toFinset.card B.toFinset.card = 0
    · have hA : A.toFinset = ∅ := Finset.card_eq_zero.mp (by omega)
      have hB : B.toFinset = ∅ := Finset.card_eq_zero.mp (by omega)
      simp [calculate_line_overlap, h, hA, hB]
    · simp [calculate_line_overlap, h]
  · simp only [calculate_line_overlap]
    rw [Finset.inter_comm, Nat.max_comm]
  · intro hA hB
    simp [calculate_line_overlap, hA, hB]
  · intro h
    have hmax : max A.toFinset.card B.toFinset.card ≠ 0 := by
      intro hz
      exact h ⟨Finset.card_eq_zero.mp (by omega), Finset.card_eq_zero.mp (by omega)⟩
    simp [calculate_line_overlap, hmax]
  · intro x hx
    have hset : (x :: A).toFinset = A.toFinset := by
      simp [List.toFinset_cons, Finset.insert_eq_self.mpr (List.mem_toFinset.mpr hx)]
    simp only [calculate_line_overlap, hset]

/-- C6 witness: the empty-empty case returns (0.0, 0) and a duplicated line
does not change the result. -/
theorem C6_line_overlap_witness :
    calculate_line_overlap [] [] = ((0 : ℚ), 0) ∧
    calculate_line_overlap ["h", "h"] ["k"] = calculate_line_overlap ["h"] ["k"] :=
  ⟨(C6_line_overlap [] []).2.2.1 (by decide) (by decide),
   (C6_line_overlap ["h"] ["k"]).2.2.2.2 "h" (by decide)⟩

/-- C8: with dry-run enabled the merger run performs every computation but
leaves the filesystem unchanged, so a second consecutive dry run over the
resulting state reports exactly the same actions. -/
theorem C8_dry_run (minOverlap : ℚ) (rep : Report) (fs : FS) :
    (merger_run_steps true minOverlap rep fs).2.1 = fs ∧
    merger_run_steps true minOverlap rep ((merger_run_steps true minOverlap rep fs).2.1) =
      merger_run_steps true minOverlap rep fs := by
  have hexact : ∀ (gs : List DupGroup) (fs' : FS),
      (processExactDuplicates true fs' gs).2 = fs' := by
    intro gs
    induction gs with
    | nil => intro fs'; rfl
    | cons g gs ih =>
      intro fs'
      cases hf : g.files with
      | nil => simpa [processExactDuplicates, hf] using ih fs'
      | cons keepF deleteFs => simpa [processExactDuplicates, hf] using ih fs'
  have hpsf : ∀ (ps : List SimPair) (fs' : FS) (merged : List String),
      (psfLoop true fs' merged ps).2.1 = fs' := by
    intro ps
    induction ps with
    | nil => intro fs' merged; rfl
    | cons p rest ih =>
      intro fs' merged
      by_cases hm : p.file1 ∈ merged ∨ p.file2 ∈ merged
      · simpa [psfLoop, hm] using ih fs' merged
      · cases hmc : merge_two_files fs' p.file1 p.file2 with
        | none => simp [psfLoop, hm, hmc]
        | some mc => simpa [psfLoop, hm, hmc] using ih fs' merged
  have h1 : (merger_run_steps true minOverlap rep fs).2.1 = fs := by
    simp only [merger_run_steps, processSimilarFiles]
    rw [hpsf, hexact]
  exact ⟨h1, by rw [h1]⟩

/-- C9: a missing inbox directory makes the analyzer's main return exit status
1 after printing exactly one error line naming the path, with no analysis run;
a missing analysis report makes the merger print an error line naming the
report path and exit with status 1, leaving the filesystem untouched. -/
theorem C9_missing_inputs :
    (∀ inboxPath : String,
      (analyzer_main false inboxPath).2.1 = 1 ∧
      (analyzer_main false inboxPath).2.2 = false ∧
      (analyzer_main false inboxPath).1 =
        ["Error: Inbox path does not exist: " ++ inboxPath]) ∧
    (∀ (analysisPath : String) (dry : Bool) (minOverlap : ℚ) (fs : FS),
      (merger_run none analysisPath dry minOverlap fs).2.1 = 1 ∧
      (merger_run none analysisPath dry minOverlap fs).2.2 = fs ∧
      (merger_run none analysisPath dry minOverlap fs).1.head? =
        some ("Error: Analysis file not found: " ++ analysisPath)) := by
  exact ⟨fun _ => ⟨rfl, rfl, rfl⟩, fun _ _ _ _ => ⟨rfl, rfl, rfl⟩⟩

/-- C10: merge_multiple_files returns the empty string for an empty file list,
and for a one-file list returns that file's content unchanged, with no merge
headers added. -/
theorem C10_merge_multiple_files (fs : FS) :
    merge_multiple_files fs [] = some "" ∧
    ∀ (f c : String), fsLookup fs f = some c →
      merge_multiple_files fs [f] = some c := by
  refine ⟨rfl, ?_⟩
  intro f c h
  simp [merge_multiple_files, read_file, h]

/-- C10 witness at a concrete one-file inbox. -/
theorem C10_merge_multiple_files_witness :
    merge_multiple_files [("a.md", "hello")] [] = some "" ∧
    merge_multiple_files [("a.md", "hello")] ["a.md"] = some "hello" :=
  ⟨(C10_merge_multiple_files [("a.md", "hello")]).1,
   (C10_merge_multiple_files [("a.md", "hello")]).2 "a.md" "hello" (by decide)⟩

set_option maxRecDepth 20000 in
/-- C1 counterexample: with a-merged.md already present (content "OLD"), the
similar-pair merge of a.md and b.md is not skipped: the pair is processed, the
existing file is overwritten with the computed merge, and both sources are
deleted. -/
theorem C1_counterexample :
    fsLookup collisionFS "a-merged.md" = some "OLD" ∧
    fsLookup (merger_run_steps false (mkRat 2 5) collisionReport collisionFS).2.1
      "a.md" = none ∧
    fsLookup (merger_run_steps false (mkRat 2 5) collisionReport collisionFS).2.1
      "b.md" = none ∧
    fsLookup (merger_run_steps false (mkRat 2 5) collisionReport collisionFS).2.1
      "a-merged.md" = merge_two_files collisionFS "a.md" "b.md" ∧
    (merge_two_files collisionFS "a.md" "b.md").isSome = true ∧
    decide (merge_two_files collisionFS "a.md" "b.md" = some "OLD") = false := by
  decide

/-- C1 amended: the merger never checks for an existing file at the computed
merge output name; for any readable candidate pair whose output name differs
from both inputs, a live run writes the computed merge there (overwriting any
previous content) and deletes both sources. -/
theorem C1_amended (fs : FS) (p : SimPair) (minOverlap : ℚ) (c1 c2 : String)
    (h1 : fsLookup fs p.file1 = some c1)
    (h2 : fsLookup fs p.file2 = some c2)
    (hmo : minOverlap ≤ p.line_overlap)
    (hn1 : suggest_merge_name [p.file1, p.file2] ≠ p.file1)
    (hn2 : suggest_merge_name [p.file1, p.file2] ≠ p.file2) :
    fsLookup (merger_run_steps false minOverlap ⟨[], [p]⟩ fs).2.1
        (suggest_merge_name [p.file1, p.file2]) =
      merge_two_files fs p.file1 p.file2 ∧
    fsLookup (merger_run_steps false minOverlap ⟨[], [p]⟩ fs).2.1 p.file1 = none ∧
    fsLookup (merger_run_steps false minOverlap ⟨[], [p]⟩ fs).2.1 p.file2 = none := by
  obtain ⟨f1, f2, psim, pov⟩ := p
  simp only at h1 h2 hmo hn1 hn2 ⊢
  have hMs : (merge_two_files fs f1 f2).isSome := by
    simp [merge_two_files, read_file, h1, h2]
  obtain ⟨M, hM⟩ := Option.isSome_iff_exists.mp hMs
  set mname := suggest_merge_name [f1, f2] with hmn
  have hfilter : List.filter (fun q => decide (minOverlap ≤ q.line_overlap))
      [(⟨f1, f2, psim, pov⟩ : SimPair)] = [⟨f1, f2, psim, pov⟩] := by
    simp [List.filter_cons, hmo]
  have hmem : ¬((f1 ∈ ([] : List String)) ∨ (f2 ∈ ([] : List String))) := by
    simp
  have hrun : (merger_run_steps false minOverlap ⟨[], [⟨f1, f2, psim, pov⟩]⟩ fs).2.1 =
      (deleteFiles (fsWrite fs mname M) [f1, f2]).2 := by
    simp only [merger_run_steps, processExactDuplicates, processSimilarFiles, hfilter]
    simp only [psfLoop, if_neg hmem, hM]
    rfl
  set W := fsWrite fs mname M with hW
  have e1 : fsLookup W f1 = some c1 := by
    rw [hW, fsLookup_fsWrite_ne fs mname M f1 (Ne.symm hn1)]
    exact h1
  by_cases hfe : f2 = f1
  · have e2 : fsLookup (fsErase W f1) f2 = none := by
      rw [hfe]
      exact fsLookup_fsErase_self W f1
    have hd : (deleteFiles W [f1, f2]).2 = fsErase W f1 := by
      simp [deleteFiles, e1, e2]
    rw [hrun, hd]
    refine ⟨?_, ?_, ?_⟩
    · rw [fsLookup_fsErase_ne _ _ _ hn1, hW, fsLookup_fsWrite_self, hM]
    · exact fsLookup_fsErase_self W f1
    · rw [hfe]
      exact fsLookup_fsErase_self W f1
  · have e2 : fsLookup (fsErase W f1) f2 = some c2 := by
      rw [fsLookup_fsErase_ne _ _ _ hfe, hW,
        fsLookup_fsWrite_ne fs mname M f2 (Ne.symm hn2)]
      exact h2
    have hd : (deleteFiles W [f1, f2]).2 = fsErase (fsErase W f1) f2 := by
      simp [deleteFiles, e1, e2]
    rw [hrun, hd]
    refine ⟨?_, ?_, ?_⟩
    · rw [fsLookup_fsErase_ne _ _ _ hn2, fsLookup_fsErase_ne _ _ _ hn1, hW,
        fsLookup_fsWrite_self, hM]
    · rw [fsLookup_fsErase_ne _ _ _ (fun he => absurd he.symm hfe)]
      exact fsLookup_fsErase_self W f1
    · exact fsLookup_fsErase_self (fsErase W f1) f2

/-- C1 amended witness: concrete overwrite-and-delete run. -/
theorem C1_amended_witness :
    fsLookup (merger_run_steps false 0 ⟨[], [⟨"a.md", "b.md", 1, 1⟩]⟩ plainFS).2.1
        (suggest_merge_name ["a.md", "b.md"]) =
      merge_two_files plainFS "a.md" "b.md" ∧
    fsLookup (merger_run_steps false 0 ⟨[], [⟨"a.md", "b.md", 1, 1⟩]⟩ plainFS).2.1
      "a.md" = none ∧
    fsLookup (merger_run_steps false 0 ⟨[], [⟨"a.md", "b.md", 1, 1⟩]⟩ plainFS).2.1
      "b.md" = none :=
  C1_amended plainFS ⟨"a.md", "b.md", 1, 1⟩ 0 "x" "y"
    (by decide) (by decide) (by decide) (by decide) (by decide)

set_option maxRecDepth 100000 in
/-- C2 counterexample: on a 200-line second sequence in which the line "x"
occurs four times, the merge partition built on the source's default
autojunk = True finds no common line, while the spec's auto-junk-free
decomposition does recover the shared "x"; so not every line is treated as
significant. -/
theorem C2_counterexample :
    junkLinesB.length = 200 ∧
    decide (find_unique_sections junkLinesA junkLinesB =
      find_unique_sections_nojunk junkLinesA junkLinesB) = false ∧
    (find_unique_sections junkLinesA junkLinesB).2.1 = [] ∧
    (find_unique_sections_nojunk junkLinesA junkLinesB).2.1 = ["x"] := by
  decide

/-- C2 amended: the decomposition is junk-free exactly when the second
sequence is shorter than 200 lines (below Python's autojunk activation
length); then both repo extractions coincide with the spec's auto-junk-free
versions. -/
theorem C2_amended (lines1 lines2 : List String) (h : lines2.length < 200) :
    find_unique_sections lines1 lines2 = find_unique_sections_nojunk lines1 lines2 ∧
    ∀ minSec, find_common_sections lines1 lines2 minSec =
      find_common_sections_nojunk lines1 lines2 minSec := by
  have hb : b2jf lines2 true = b2jf lines2 false := by
    funext c
    simp [b2jf, isPopular, Nat.not_le.mpr h]
  have hg : getMatchingBlocks lines1 lines2 true =
      getMatchingBlocks lines1 lines2 false := by
    simp only [getMatchingBlocks, hb]
  refine ⟨?_, ?_⟩
  · simp only [find_unique_sections, find_unique_sections_nojunk,
      getMatchingBlocks_nojunk, hg]
  · intro minSec
    simp only [find_common_sections, find_common_sections_nojunk,
      getMatchingBlocks_nojunk, hg]

/-- C2 amended witness at a short input. -/
theorem C2_amended_witness :
    find_unique_sections ["a", "b"] ["b", "c"] =
      find_unique_sections_nojunk ["a", "b"] ["b", "c"] :=
  (C2_amended ["a", "b"] ["b", "c"] (by decide)).1

/-- C3 counterexample: in a dry run over two candidate pairs sharing a.md,
both pairs are reported as merged (the second is not skipped), so a.md is used
as a merge input twice; the claim's "including dry-run" fails because
merged_files is only updated outside dry-run. -/
theorem C3_counterexample :
    MAction.pairMerge "a.md" "b.md" "a-merged.md" ∈
      (merger_run_steps true (mkRat 2 5) overlapReport overlapFS).1 ∧
    MAction.pairMerge "a.md" "c.md" "a-merged.md" ∈
      (merger_run_steps true (mkRat 2 5) overlapReport overlapFS).1 ∧
    decide (NoReuse (merger_run_steps true (mkRat 2 5) overlapReport overlapFS).1) =
      false := by
  decide

theorem mergeInputs_deleteFiles :
    ∀ (l : List String) (fs : FS) (x : MAction),
      x ∈ (deleteFiles fs l).1 → mergeInputsOf x = [] := by
  intro l
  induction l with
  | nil =>
    intro fs x hx
    simp [deleteFiles] at hx
  | cons f rest ih =>
    intro fs x hx
    by_cases hs : (fsLookup fs f).isSome
    · simp only [deleteFiles, if_pos hs, List.mem_cons] at hx
      rcases hx with hx | hx
      · subst hx; rfl
      · exact ih _ x hx
    · simp only [deleteFiles, if_neg hs] at hx
      exact ih _ x hx

theorem mergeInputs_processExact :
    ∀ (gs : List DupGroup) (dry : Bool) (fs : FS) (x : MAction),
      x ∈ (processExactDuplicates dry fs gs).1 → mergeInputsOf x = [] := by
  intro gs
  induction gs with
  | nil =>
    intro dry fs x hx
    simp [processExactDuplicates] at hx
  | cons g gs ih =>
    intro dry fs x hx
    cases hf : g.files with
    | nil =>
      rw [processExactDuplicates, hf] at hx
      exact ih dry fs x hx
    | cons keepF deleteFs =>
      rw [processExactDuplicates, hf] at hx
      cases dry with
      | true =>
        simp only [if_true, List.mem_append, List.mem_cons,
          List.not_mem_nil, or_false] at hx
        rcases hx with (hx | hx) | hx
        · subst hx; rfl
        · subst hx; rfl
        · exact ih true fs x hx
      | false =>
        simp only [Bool.false_eq_true, if_false, List.mem_append, List.mem_cons,
          List.not_mem_nil, or_false] at hx
        rcases hx with ((hx | hx) | hx) | hx
        · subst hx; rfl
        · subst hx; rfl
        · exact mergeInputs_deleteFiles _ _ x hx
        · exact ih false _ x hx

theorem pairwise_of_empty_inputs (l : List MAction)
    (h : ∀ x ∈ l, mergeInputsOf x = []) :
    List.Pairwise (fun x y => ∀ f, f ∈ mergeInputsOf x → f ∉ mergeInputsOf y) l := by
  induction l with
  | nil => exact List.Pairwise.nil
  | cons a l ih =>
    refine List.Pairwise.cons ?_ (ih (fun x hx => h x (List.mem_cons_of_mem a hx)))
    intro y _ f hf
    rw [h a (List.mem_cons_self a l)] at hf
    simp at hf

theorem psf_live_noreuse :
    ∀ (ps : List SimPair) (fs : FS) (merged : List String),
      List.Pairwise (fun x y => ∀ f, f ∈ mergeInputsOf x → f ∉ mergeInputsOf y)
        (psfLoop false fs merged ps).1 ∧
      (∀ x ∈ (psfLoop false fs merged ps).1,
        ∀ f, f ∈ mergeInputsOf x → f ∉ merged) := by
  intro ps
  induction ps with
  | nil =>
    intro fs merged
    exact ⟨List.Pairwise.nil, by intro x hx; simp [psfLoop] at hx⟩
  | cons p rest ih =>
    intro fs merged
    by_cases hm : p.file1 ∈ merged ∨ p.file2 ∈ merged
    · rw [psfLoop, if_pos hm]
      obtain ⟨ihp, ihm⟩ := ih fs merged
      constructor
      · refine List.Pairwise.cons ?_ ihp
        intro y _ f hf
        simp [mergeInputsOf] at hf
      · intro x hx f hf
        rcases List.mem_cons.mp hx with hx | hx
        · subst hx; simp [mergeInputsOf] at hf
        · exact ihm x hx f hf
    · rw [psfLoop, if_neg hm]
      cases hmc : merge_two_files fs p.file1 p.file2 with
      | none =>
        exact ⟨List.Pairwise.nil, by intro x hx; simp at hx⟩
      | some mc =>
        simp only [List.append_eq]
        obtain ⟨ihp, ihm⟩ := ih
          (deleteFiles (fsWrite fs (suggest_merge_name [p.file1, p.file2]) mc)
            [p.file1, p.file2]).2
          (merged ++ [p.file1, p.file2])
        have hdel : ∀ x ∈ (deleteFiles
            (fsWrite fs (suggest_merge_name [p.file1, p.file2]) mc)
            [p.file1, p.file2]).1, mergeInputsOf x = [] :=
          fun x hx => mergeInputs_deleteFiles _ _ x hx
        constructor
        · refine List.Pairwise.cons ?_ (List.Pairwise.cons ?_ ?_)
          · -- the pairMerge head against everything after it
            intro y hy f hf
            have hf12 : f = p.file1 ∨ f = p.file2 := by
              simpa [mergeInputsOf] using hf
            rcases List.mem_cons.mp hy with hy | hy
            · subst hy; simp [mergeInputsOf]
            · rcases List.mem_append.mp hy with hy | hy
              · rw [hdel y hy]; simp
              · intro hfy
                exact ihm y hy f hfy
                  (List.mem_append.mpr (Or.inr (by rcases hf12 with h | h <;> simp [h])))
          · -- the created entry has no inputs
            intro y _ f hf
            simp [mergeInputsOf] at hf
          · simp only [List.append_eq]
            rw [List.pairwise_append]
            refine ⟨pairwise_of_empty_inputs _ hdel, ihp, ?_⟩
            intro x hx y _ f hf
            rw [hdel x hx] at hf
            simp at hf
        · intro x hx f hf
          rcases List.mem_cons.mp hx with hx | hx
          · subst hx
            have hf12 : f = p.file1 ∨ f = p.file2 := by
              simpa [mergeInputsOf] using hf
            rcases hf12 with h | h
            · rw [h]; intro hc; exact hm (Or.inl hc)
            · rw [h]; intro hc; exact hm (Or.inr hc)
          rcases List.mem_cons.mp hx with hx | hx
          · subst hx; simp [mergeInputsOf] at hf
          rcases List.mem_append.mp hx with hx | hx
          · rw [hdel x hx] at hf; simp at hf
          · intro hc
            exact ihm x hx f hf (List.mem_append.mpr (Or.inl hc))

theorem pair_sublist_cons (f1 f2 f : AFile) (rest : List AFile) :
    List.Sublist [f1, f2] (f :: rest) ↔
      (f1 = f ∧ f2 ∈ rest) ∨ List.Sublist [f1, f2] rest := by
  constructor
  · intro h
    cases h with
    | cons _ h => exact Or.inr h
    | cons₂ _ h => exact Or.inl ⟨rfl, List.singleton_sublist.mp h⟩
  · rintro (⟨rfl, hm⟩ | h)
    · exact List.Sublist.cons₂ _ (List.singleton_sublist.mpr hm)
    · exact List.Sublist.cons _ h

theorem fsfPairs_mem (t : ℚ) :
    ∀ (files : List AFile) (m : SimMatch),
      m ∈ fsfPairs t files ↔
        ∃ f1 f2, List.Sublist [f1, f2] files ∧ pairMatch t f1 f2 = some m := by
  intro files
  induction files with
  | nil =>
    intro m
    simp [fsfPairs, List.sublist_nil]
  | cons f rest ih =>
    intro m
    rw [fsfPairs, List.mem_append, List.mem_filterMap]
    constructor
    · rintro (⟨f2, hf2, hpm⟩ | hmem)
      · exact ⟨f, f2, (pair_sublist_cons f f2 f rest).mpr (Or.inl ⟨rfl, hf2⟩), hpm⟩
      · obtain ⟨f1, f2, hs, hpm⟩ := (ih m).mp hmem
        exact ⟨f1, f2, List.Sublist.cons f hs, hpm⟩
    · rintro ⟨f1, f2, hs, hpm⟩
      rcases (pair_sublist_cons f1 f2 f rest).mp hs with ⟨rfl, hm2⟩ | hs'
      · exact Or.inl ⟨f2, hm2, hpm⟩
      · exact Or.inr ((ih m).mpr ⟨f1, f2, hs', hpm⟩)

theorem pairMatch_eq_some (t : ℚ) (f1 f2 : AFile) (m : SimMatch) :
    pairMatch t f1 f2 = some m ↔
      f1.hash ≠ f2.hash ∧
      (t ≤ calculate_similarity f1.content f2.content ∨
       t ≤ (calculate_line_overlap f1.line_hashes f2.line_hashes).1) ∧
      m = mkSimMatch f1 f2 := by
  unfold pairMatch
  by_cases h1 : f1.hash = f2.hash
  · simp [h1]
  · by_cases h2 : t ≤ calculate_similarity f1.content f2.content ∨
        t ≤ (calculate_line_overlap f1.line_hashes f2.line_hashes).1
    · simp [h1, h2, eq_comm]
    · simp [h1, h2]

/-- C7: a SimilarityMatch is recorded by find_similar_files exactly for the
ordered document pairs (in load order) whose whole-content hashes differ and
where at least one of the two metrics reaches the threshold; equal-hash pairs
are never recorded. -/
theorem C7_similar_pairs (files : List AFile) (t : ℚ) (m : SimMatch) :
    m ∈ find_similar_files files t ↔
      ∃ f1 f2, List.Sublist [f1, f2] files ∧ f1.hash ≠ f2.hash ∧
        (t ≤ calculate_similarity f1.content f2.content ∨
         t ≤ (calculate_line_overlap f1.line_hashes f2.line_hashes).1) ∧
        m = mkSimMatch f1 f2 := by
  unfold find_similar_files
  rw [(List.mergeSort_perm _ _).mem_iff, fsfPairs_mem]
  constructor
  · rintro ⟨f1, f2, hs, hpm⟩
    obtain ⟨hh, hth, hm⟩ := (pairMatch_eq_some t f1 f2 m).mp hpm
    exact ⟨f1, f2, hs, hh, hth, hm⟩
  · rintro ⟨f1, f2, hs, hh, hth, hm⟩
    exact ⟨f1, f2, hs, (pairMatch_eq_some t f1 f2 m).mpr ⟨hh, hth, hm⟩⟩

theorem overlap_nonneg (A B : List String) :
    0 ≤ (calculate_line_overlap A B).1 := by
  unfold calculate_line_overlap
  by_cases h : max A.toFinset.card B.toFinset.card = 0
  · simp [h]
  · simp only [h, if_false]
    exact div_nonneg (Nat.cast_nonneg _) (Nat.cast_nonneg _)

/-- C7 witness: two equal-content distinct-hash files are recorded at
threshold 0 via the line-overlap branch. -/
theorem C7_similar_pairs_witness :
    mkSimMatch fileA fileB ∈ find_similar_files [fileA, fileB] 0 :=
  (C7_similar_pairs [fileA, fileB] 0 (mkSimMatch fileA fileB)).mpr
    ⟨fileA, fileB, List.Sublist.refl _, by decide,
     Or.inr (overlap_nonneg fileA.line_hashes fileB.line_hashes), rfl⟩

/-- C3 amended: in a live (non-dry) run the merged_files set does make every
later pair that references a consumed document skip, so no document is used as
a merge input twice; in dry-run mode the set is never updated and the
guarantee does not hold (see the counterexample). -/
theorem C3_amended (minOverlap : ℚ) (rep : Report) (fs : FS) :
    NoReuse (merger_run_steps false minOverlap rep fs).1 := by
  unfold NoReuse merger_run_steps
  simp only
  rw [List.pairwise_append]
  refine ⟨pairwise_of_empty_inputs _
    (fun x hx => mergeInputs_processExact _ _ _ x hx),
    (psf_live_noreuse _ _ _).1, ?_⟩
  intro x hx y _ f hf
  rw [mergeInputs_processExact _ _ _ x hx] at hf
  simp at hf

/-! C5: the blocks returned by get_matching_blocks are chained (pairwise
disjoint, ascending intervals on both sides), from which the merge partition
is lossless. -/

theorem chained_mono {la0 lb0 ha hb la0' lb0' : Nat} :
    ∀ {l : List MB}, Chained la0 lb0 ha hb l → la0' ≤ la0 → lb0' ≤ lb0 →
      Chained la0' lb0' ha hb l := by
  intro l h h1 h2
  cases l with
  | nil => trivial
  | cons m ms =>
    obtain ⟨a1, a2, a3, a4, a5⟩ := h
    exact ⟨by omega, by omega, a3, a4, a5⟩

theorem chained_append {ha hb : Nat} :
    ∀ (l1 : List MB) (la0 lb0 ma mb : Nat) (l2 : List MB),
      Chained la0 lb0 ma mb l1 → Chained ma mb ha hb l2 →
      la0 ≤ ma → lb0 ≤ mb → ma ≤ ha → mb ≤ hb →
      Chained la0 lb0 ha hb (l1 ++ l2) := by
  intro l1
  induction l1 with
  | nil =>
    intro la0 lb0 ma mb l2 _ h2 hm1 hm2 _ _
    exact chained_mono h2 hm1 hm2
  | cons m ms ih =>
    intro la0 lb0 ma mb l2 h1 h2 hm1 hm2 hh1 hh2
    obtain ⟨a1, a2, a3, a4, a5⟩ := h1
    exact ⟨a1, a2, by omega, by omega,
      ih _ _ _ _ l2 a5 h2 a3 a4 hh1 hh2⟩

theorem mbRec_chained [DecidableEq α] [Inhabited α] (a b : List α)
    (bj2 : α → List Nat) :
    ∀ (fuel alo ahi blo bhi : Nat), alo ≤ ahi → blo ≤ bhi →
      Chained alo blo ahi bhi (mbRec a b bj2 fuel alo ahi blo bhi) := by
  intro fuel
  induction fuel with
  | zero => intro alo ahi blo bhi _ _; trivial
  | succ fuel ih =>
    intro alo ahi blo bhi ha hb
    have hr := findLongestMatch_range a b bj2 alo ahi blo bhi ha hb
    rw [mbRec]
    by_cases hk : 0 < (findLongestMatch a b bj2 alo ahi blo bhi).size
    · rw [if_pos hk]
      have hmid : Chained (findLongestMatch a b bj2 alo ahi blo bhi).a
          (findLongestMatch a b bj2 alo ahi blo bhi).b ahi bhi
          ([findLongestMatch a b bj2 alo ahi blo bhi] ++
            (if (findLongestMatch a b bj2 alo ahi blo bhi).a +
                  (findLongestMatch a b bj2 alo ahi blo bhi).size < ahi ∧
                (findLongestMatch a b bj2 alo ahi blo bhi).b +
                  (findLongestMatch a b bj2 alo ahi blo bhi).size < bhi then
              mbRec a b bj2 fuel
                ((findLongestMatch a b bj2 alo ahi blo bhi).a +
                  (findLongestMatch a b bj2 alo ahi blo bhi).size) ahi
                ((findLongestMatch a b bj2 alo ahi blo bhi).b +
                  (findLongestMatch a b bj2 alo ahi blo bhi).size) bhi
            else [])) := by
        refine ⟨le_refl _, le_refl _, hr.2.1, hr.2.2.2, ?_⟩
        by_cases h3 : (findLongestMatch a b bj2 alo ahi blo bhi).a +
              (findLongestMatch a b bj2 alo ahi blo bhi).size < ahi ∧
            (findLongestMatch a b bj2 alo ahi blo bhi).b +
              (findLongestMatch a b bj2 alo ahi blo bhi).size < bhi
        · rw [if_pos h3]
          exact ih _ ahi _ bhi (by omega) (by omega)
        · rw [if_neg h3]
          trivial
      by_cases h2 : alo < (findLongestMatch a b bj2 alo ahi blo bhi).a ∧
          blo < (findLongestMatch a b bj2 alo ahi blo bhi).b
      · rw [if_pos h2, List.append_assoc]
        exact chained_append _ _ _ _ _ _
          (ih alo _ blo _ (by omega) (by omega)) hmid
          (by omega) (by omega) (by omega) (by omega)
      · rw [if_neg h2]
        simp only [List.nil_append]
        exact chained_mono hmid hr.1 hr.2.2.1
    · rw [if_neg hk]
      trivial

theorem nonAdjAux_chained {ha hb : Nat} :
    ∀ (l : List MB) (i1 j1 k1 la0 lb0 : Nat),
      Chained (i1 + k1) (j1 + k1) ha hb l →
      la0 ≤ i1 → lb0 ≤ j1 → i1 + k1 ≤ ha → j1 + k1 ≤ hb →
      Chained la0 lb0 ha hb (nonAdjAux i1 j1 k1 l) := by
  intro l
  induction l with
  | nil =>
    intro i1 j1 k1 la0 lb0 _ h1 h2 h3 h4
    rw [nonAdjAux]
    by_cases hk : 0 < k1
    · rw [if_pos hk]
      exact ⟨h1, h2, h3, h4, trivial⟩
    · rw [if_neg hk]
      trivial
  | cons m ms ih =>
    intro i1 j1 k1 la0 lb0 hch h1 h2 h3 h4
    obtain ⟨c1, c2, c3, c4, c5⟩ := hch
    rw [nonAdjAux]
    by_cases hadj : i1 + k1 = m.a ∧ j1 + k1 = m.b
    · rw [if_pos hadj]
      refine ih i1 j1 (k1 + m.size) la0 lb0 ?_ h1 h2 (by omega) (by omega)
      have e1 : i1 + (k1 + m.size) = m.a + m.size := by omega
      have e2 : j1 + (k1 + m.size) = m.b + m.size := by omega
      rw [e1, e2]
      exact c5
    · rw [if_neg hadj]
      have hrest : Chained (i1 + k1) (j1 + k1) ha hb
          (nonAdjAux m.a m.b m.size ms) :=
        ih m.a m.b m.size (i1 + k1) (j1 + k1) c5 c1 c2 c3 c4
      by_cases hk : 0 < k1
      · rw [if_pos hk]
        simp only [List.singleton_append]
        exact ⟨h1, h2, h3, h4, hrest⟩
      · rw [if_neg hk]
        simp only [List.nil_append]
        exact chained_mono hrest (by omega) (by omega)

theorem getMatchingBlocks_chained [DecidableEq α] [Inhabited α] (a b : List α)
    (aj : Bool) :
    Chained 0 0 a.length b.length (getMatchingBlocks a b aj) := by
  unfold getMatchingBlocks
  refine chained_append _ 0 0 a.length b.length _ ?_ ?_ (Nat.zero_le _)
    (Nat.zero_le _) (le_refl _) (le_refl _)
  · refine nonAdjAux_chained _ 0 0 0 0 0 ?_ (le_refl _) (le_refl _)
      (Nat.zero_le _) (Nat.zero_le _)
    simpa using mbRec_chained a b (b2jf b aj) (a.length + 1) 0 a.length 0 b.length
      (Nat.zero_le _) (Nat.zero_le _)
  · exact ⟨le_refl _, le_refl _, by simp, by simp, trivial⟩

theorem pchain_le : ∀ (l : List (Nat × Nat)) (p hi : Nat), PChain p hi l → p ≤ hi := by
  intro l
  induction l with
  | nil => intro p hi h; exact h
  | cons q l ih =>
    intro p hi h
    have h1 := h.1
    have := ih (q.1 + q.2) hi h.2
    omega

theorem chained_pchain_a :
    ∀ (l : List MB) (p pb ha hb : Nat), Chained p pb ha hb l → p ≤ ha →
      PChain p ha (l.map (fun m => (m.a, m.size))) := by
  intro l
  induction l with
  | nil => intro p pb ha hb _ hp; exact hp
  | cons m ms ih =>
    intro p pb ha hb h hp
    obtain ⟨c1, c2, c3, c4, c5⟩ := h
    exact ⟨c1, ih _ _ _ _ c5 c3⟩

theorem chained_pchain_b :
    ∀ (l : List MB) (p pb ha hb : Nat), Chained p pb ha hb l → pb ≤ hb →
      PChain pb hb (l.map (fun m => (m.b, m.size))) := by
  intro l
  induction l with
  | nil => intro p pb ha hb _ hp; exact hp
  | cons m ms ih =>
    intro p pb ha hb h hp
    obtain ⟨c1, c2, c3, c4, c5⟩ := h
    exact ⟨c2, ih _ _ _ _ c5 c4⟩

theorem pfold_card (proj : MB → Nat) :
    ∀ (l : List MB) (s : Finset Nat) (p hi : Nat),
      PChain p hi (l.map (fun m => (proj m, m.size))) → s ⊆ Finset.range p →
      ((l.foldl
          (fun st m => if 0 < m.size then st ∪ Finset.Ico (proj m) (proj m + m.size) else st)
          s).card = s.card + (l.map MB.size).sum ∧
        l.foldl
          (fun st m => if 0 < m.size then st ∪ Finset.Ico (proj m) (proj m + m.size) else st)
          s ⊆ Finset.range hi) := by
  intro l
  induction l with
  | nil =>
    intro s p hi hpc hs
    refine ⟨by simp, ?_⟩
    simp only [List.foldl_nil]
    exact hs.trans (Finset.range_subset.mpr hpc)
  | cons q l ih =>
    intro s p hi hpc hs
    rw [List.map_cons] at hpc
    obtain ⟨hq, hrest⟩ := hpc
    simp only at hq hrest
    simp only [List.foldl_cons, List.map_cons, List.sum_cons]
    by_cases hz : 0 < q.size
    · rw [if_pos hz]
      have hsub : s ∪ Finset.Ico (proj q) (proj q + q.size) ⊆
          Finset.range (proj q + q.size) := by
        intro x hx
        rcases Finset.mem_union.mp hx with hx | hx
        · have := hs hx
          rw [Finset.mem_range] at *
          omega
        · rw [Finset.mem_Ico] at hx
          rw [Finset.mem_range]
          omega
      have hdisj : Disjoint s (Finset.Ico (proj q) (proj q + q.size)) := by
        rw [Finset.disjoint_left]
        intro x hx hx2
        have := hs hx
        rw [Finset.mem_range] at this
        rw [Finset.mem_Ico] at hx2
        omega
      obtain ⟨ihc, ihs⟩ := ih (s ∪ Finset.Ico (proj q) (proj q + q.size))
        (proj q + q.size) hi hrest hsub
      refine ⟨?_, ihs⟩
      rw [ihc, Finset.card_union_of_disjoint hdisj, Nat.card_Ico]
      omega
    · rw [if_neg hz]
      obtain ⟨ihc, ihs⟩ := ih s (proj q + q.size) hi hrest
        (hs.trans (Finset.range_subset.mpr (by omega)))
      exact ⟨by rw [ihc]; omega, ihs⟩

theorem pfold_common_len (lines1 : List String) :
    ∀ (l : List MB) (acc : List String) (p : Nat),
      PChain p lines1.length (l.map (fun m => (m.a, m.size))) →
      (l.foldl (fun acc m => if 0 < m.size then acc ++ (lines1.drop m.a).take m.size else acc)
          acc).length = acc.length + (l.map MB.size).sum := by
  intro l
  induction l with
  | nil =>
    intro acc p _
    simp
  | cons q l ih =>
    intro acc p hpc
    rw [List.map_cons] at hpc
    obtain ⟨hq, hrest⟩ := hpc
    simp only at hq hrest
    have hend : q.a + q.size ≤ lines1.length := pchain_le _ _ _ hrest
    simp only [List.foldl_cons, List.map_cons, List.sum_cons]
    by_cases hz : 0 < q.size
    · rw [if_pos hz, ih _ _ hrest]
      simp only [List.length_append, List.length_take, List.length_drop]
      omega
    · rw [if_neg hz, ih _ _ hrest]
      omega

theorem cfold_hom (lines1 : List String) :
    ∀ (l : List MB) (acc : List String),
      l.foldl (fun acc m => if 0 < m.size then acc ++ (lines1.drop m.a).take m.size else acc)
          acc =
        acc ++ l.foldl
          (fun acc m => if 0 < m.size then acc ++ (lines1.drop m.a).take m.size else acc)
          [] := by
  intro l
  induction l with
  | nil => intro acc; simp
  | cons q l ih =>
    intro acc
    simp only [List.foldl_cons]
    rw [ih (if 0 < q.size then acc ++ (lines1.drop q.a).take q.size else acc),
      ih (if 0 < q.size then [] ++ (lines1.drop q.a).take q.size else [])]
    by_cases hz : 0 < q.size
    · rw [if_pos hz, if_pos hz, List.nil_append, List.append_assoc]
    · rw [if_neg hz, if_neg hz, List.nil_append]

theorem cfold_sublist (lines1 : List String) :
    ∀ (l : List MB) (p : Nat), PChain p lines1.length (l.map (fun m => (m.a, m.size))) →
      List.Sublist
        (l.foldl (fun acc m => if 0 < m.size then acc ++ (lines1.drop m.a).take m.size else acc)
          [])
        (lines1.drop p) := by
  intro l
  induction l with
  | nil =>
    intro p _
    simp
  | cons q l ih =>
    intro p hpc
    rw [List.map_cons] at hpc
    obtain ⟨hq, hrest⟩ := hpc
    simp only at hq hrest
    simp only [List.foldl_cons]
    rw [cfold_hom]
    have hrs := ih (q.a + q.size) hrest
    have key : (lines1.drop q.a).take q.size ++ lines1.drop (q.a + q.size) =
        lines1.drop q.a := by
      have h := List.take_append_drop q.size (lines1.drop q.a)
      rwa [List.drop_drop] at h
    have h1 : List.Sublist
        ((if 0 < q.size then [] ++ (lines1.drop q.a).take q.size else []) ++
          l.foldl (fun acc m => if 0 < m.size then acc ++ (lines1.drop m.a).take m.size else acc) [])
        (lines1.drop q.a) := by
      by_cases hz : 0 < q.size
      · rw [if_pos hz, List.nil_append]
        have hstep := hrs.append_left ((lines1.drop q.a).take q.size)
        rw [key] at hstep
        exact hstep
      · rw [if_neg hz, List.nil_append]
        have hq2 : q.size = 0 := by omega
        have he : q.a + q.size = q.a := by omega
        rw [he] at hrs
        exact hrs
    refine h1.trans ?_
    have hd : lines1.drop q.a = (lines1.drop p).drop (q.a - p) := by
      rw [List.drop_drop]
      congr 1
      omega
    rw [hd]
    exact List.drop_sublist _ _

theorem pickUnique_sublist :
    ∀ (lines : List String) (i : Nat) (s : Finset Nat),
      List.Sublist (pickUnique s i lines) lines := by
  intro lines
  induction lines with
  | nil => intro i s; simp [pickUnique]
  | cons x rest ih =>
    intro i s
    rw [pickUnique]
    by_cases h : i ∈ s
    · rw [if_pos h]
      exact (ih (i + 1) s).cons x
    · rw [if_neg h]
      exact (ih (i + 1) s).cons₂ x

theorem pickUnique_length :
    ∀ (lines : List String) (i : Nat) (s : Finset Nat),
      (pickUnique s i lines).length =
        ((Finset.Ico i (i + lines.length)).filter (fun j => j ∉ s)).card := by
  intro lines
  induction lines with
  | nil =>
    intro i s
    simp [pickUnique]
  | cons x rest ih =>
    intro i s
    have hins : Finset.Ico i (i + (x :: rest).length) =
        insert i (Finset.Ico (i + 1) ((i + 1) + rest.length)) := by
      ext j
      simp only [Finset.mem_Ico, Finset.mem_insert, List.length_cons]
      omega
    have hni : i ∉ Finset.Ico (i + 1) ((i + 1) + rest.length) := by
      simp [Finset.mem_Ico]
    rw [hins, Finset.filter_insert]
    rw [pickUnique]
    by_cases h : i ∈ s
    · rw [if_pos h, if_neg (by simp [h]), ih]
    · rw [if_neg h, if_pos (by simp [h])]
      rw [Finset.card_insert_of_not_mem (fun hc => hni (Finset.mem_of_mem_filter i hc))]
      simp only [List.length_cons]
      rw [ih]

/-- C5: the merge partition is lossless: unique1 + common recovers the length
of lines1, unique2 + common recovers the length of lines2, and each of the
three groups preserves the original line order (each is a sublist of the
document it is drawn from; common is drawn from lines1). -/
theorem C5_partition_lossless (lines1 lines2 : List String) :
    (find_unique_sections lines1 lines2).1.length +
        (find_unique_sections lines1 lines2).2.1.length = lines1.length ∧
    (find_unique_sections lines1 lines2).2.2.length +
        (find_unique_sections lines1 lines2).2.1.length = lines2.length ∧
    List.Sublist (find_unique_sections lines1 lines2).1 lines1 ∧
    List.Sublist (find_unique_sections lines1 lines2).2.2 lines2 ∧
    List.Sublist (find_unique_sections lines1 lines2).2.1 lines1 := by
  have hch := getMatchingBlocks_chained lines1 lines2 true
  have hpa := chained_pchain_a _ _ _ _ _ hch (Nat.zero_le _)
  have hpb := chained_pchain_b _ _ _ _ _ hch (Nat.zero_le _)
  set blocks := getMatchingBlocks lines1 lines2 true with hbl
  have hcard1 := pfold_card MB.a blocks ∅ 0 lines1.length hpa (by simp)
  have hcard2 := pfold_card MB.b blocks ∅ 0 lines2.length hpb (by simp)
  have hsum1 : (processedSet MB.a blocks).card = (blocks.map MB.size).sum := by
    show (blocks.foldl
      (fun st m => if 0 < m.size then st ∪ Finset.Ico (MB.a m) (MB.a m + m.size) else st)
      ∅).card = (blocks.map MB.size).sum
    rw [hcard1.1, Finset.card_empty]
    omega
  have hsum2 : (processedSet MB.b blocks).card = (blocks.map MB.size).sum := by
    show (blocks.foldl
      (fun st m => if 0 < m.size then st ∪ Finset.Ico (MB.b m) (MB.b m + m.size) else st)
      ∅).card = (blocks.map MB.size).sum
    rw [hcard2.1, Finset.card_empty]
    omega
  have hclen : (commonLinesOf lines1 blocks).length = (blocks.map MB.size).sum := by
    show (blocks.foldl
      (fun acc m => if 0 < m.size then acc ++ (lines1.drop m.a).take m.size else acc)
      []).length = (blocks.map MB.size).sum
    rw [pfold_common_len lines1 blocks [] 0 hpa]
    simp
  have hsub1 : processedSet MB.a blocks ⊆ Finset.range lines1.length := hcard1.2
  have hsub2 : processedSet MB.b blocks ⊆ Finset.range lines2.length := hcard2.2
  have hu1 : (pickUnique (processedSet MB.a blocks) 0 lines1).length =
      lines1.length - (processedSet MB.a blocks).card := by
    rw [pickUnique_length]
    have hico : Finset.Ico 0 (0 + lines1.length) = Finset.range lines1.length := by
      ext j
      simp [Finset.mem_Ico, Finset.mem_range]
    rw [hico, ← Finset.sdiff_eq_filter,
      Finset.card_sdiff hsub1, Finset.card_range]
  have hu2 : (pickUnique (processedSet MB.b blocks) 0 lines2).length =
      lines2.length - (processedSet MB.b blocks).card := by
    rw [pickUnique_length]
    have hico : Finset.Ico 0 (0 + lines2.length) = Finset.range lines2.length := by
      ext j
      simp [Finset.mem_Ico, Finset.mem_range]
    rw [hico, ← Finset.sdiff_eq_filter,
      Finset.card_sdiff hsub2, Finset.card_range]
  have hle1 : (processedSet MB.a blocks).card ≤ lines1.length := by
    have := Finset.card_le_card hsub1
    simpa using this
  have hle2 : (processedSet MB.b blocks).card ≤ lines2.length := by
    have := Finset.card_le_card hsub2
    simpa using this
  refine ⟨?_, ?_, ?_, ?_, ?_⟩
  · show (pickUnique (processedSet MB.a blocks) 0 lines1).length +
      (commonLinesOf lines1 blocks).length = lines1.length
    rw [hu1, hclen, ← hsum1]
    omega
  · show (pickUnique (processedSet MB.b blocks) 0 lines2).length +
      (commonLinesOf lines1 blocks).length = lines2.length
    rw [hu2, hclen, ← hsum2]
    omega
  · exact pickUnique_sublist lines1 0 _
  · exact pickUnique_sublist lines2 0 _
  · show List.Sublist (commonLinesOf lines1 blocks) lines1
    have hsl := cfold_sublist lines1 blocks 0 hpa
    simp only [List.drop_zero] at hsl
    exact hsl

/-! C4: SequenceMatcher.ratio on an input paired with itself, and on inputs
with no common element. -/

theorem mem_b2jf [DecidableEq α] (l : List α) (aj : Bool) (c : α) (j : Nat) :
    j ∈ b2jf l aj c ↔
      ¬isPopular l aj c = true ∧ j < l.length ∧ l.get? j = some c := by
  unfold b2jf
  by_cases h : isPopular l aj c
  · simp [h]
  · simp [h, List.mem_filter, List.mem_range]

theorem b2jf_sorted [DecidableEq α] (l : List α) (aj : Bool) (c : α) :
    List.Pairwise (· < ·) (b2jf l aj c) := by
  unfold b2jf
  by_cases h : isPopular l aj c
  · simp [h]
  · rw [if_neg h]
    exact List.Pairwise.sublist (List.filter_sublist _) (List.pairwise_lt_range _)

theorem getD_of_get? [Inhabited α] {l : List α} {j : Nat} {c : α}
    (h : l.get? j = some c) : l.getD j default = c := by
  rw [List.getD_eq_getElem?_getD, ← List.get?_eq_getElem?, h, Option.getD_some]

theorem get?_self_getD [Inhabited α] {l : List α} {i : Nat} (h : i < l.length) :
    l.get? i = some (l.getD i default) := by
  rw [List.get?_eq_getElem?, List.getElem?_eq_getElem h,
    List.getD_eq_getElem?_getD, List.getElem?_eq_getElem h]
  rfl

/-- Diagonal dominance, left case: on a self-comparison, a run ending at
(i, j) with j ≤ i is no longer than the diagonal run ending at (j, j). -/
theorem runv_le_diag_left [DecidableEq α] [Inhabited α] (l : List α) (aj : Bool) :
    ∀ (i : Nat), i < l.length → ∀ j, j ≤ i →
      runv l (b2jf l aj) i j ≤ runv l (b2jf l aj) j j := by
  intro i
  induction i using Nat.strong_induction_on with
  | _ i ih =>
    intro hi j hj
    by_cases hs : j ∈ b2jf l aj (l.getD i default)
    · obtain ⟨hpop, hjn, hget⟩ := (mem_b2jf l aj _ j).mp hs
      have hgd : l.getD j default = l.getD i default := getD_of_get? hget
      have hsjj : j ∈ b2jf l aj (l.getD j default) := by
        rw [hgd]
        exact hs
      have eqi : runv l (b2jf l aj) i j =
          (if _ : i = 0 ∨ j = 0 then 0 else runv l (b2jf l aj) (i - 1) (j - 1)) + 1 := by
        rw [runv, if_pos hs]
      have eqj : runv l (b2jf l aj) j j =
          (if _ : j = 0 ∨ j = 0 then 0 else runv l (b2jf l aj) (j - 1) (j - 1)) + 1 := by
        rw [runv, if_pos hsjj]
      rw [eqi, eqj]
      by_cases h0 : j = 0
      · simp [h0]
      · by_cases hi0 : i = 0
        · omega
        · rw [dif_neg (by omega : ¬(i = 0 ∨ j = 0)), dif_neg (by omega : ¬(j = 0 ∨ j = 0))]
          have := ih (i - 1) (by omega) (by omega) (j - 1) (by omega)
          omega
    · rw [runv, if_neg hs]
      omega

/-- Diagonal dominance, right case: on a self-comparison, a run ending at
(i, j) with i ≤ j is no longer than the diagonal run ending at (i, i). -/
theorem runv_le_diag_right [DecidableEq α] [Inhabited α] (l : List α) (aj : Bool) :
    ∀ (i : Nat), i < l.length → ∀ j, i ≤ j →
      runv l (b2jf l aj) i j ≤ runv l (b2jf l aj) i i := by
  intro i
  induction i using Nat.strong_induction_on with
  | _ i ih =>
    intro hi j hj
    by_cases hs : j ∈ b2jf l aj (l.getD i default)
    · obtain ⟨hpop, hjn, hget⟩ := (mem_b2jf l aj _ j).mp hs
      have hsii : i ∈ b2jf l aj (l.getD i default) := by
        rw [mem_b2jf]
        exact ⟨hpop, hi, get?_self_getD hi⟩
      have eqj : runv l (b2jf l aj) i j =
          (if _ : i = 0 ∨ j = 0 then 0 else runv l (b2jf l aj) (i - 1) (j - 1)) + 1 := by
        rw [runv, if_pos hs]
      have eqi : runv l (b2jf l aj) i i =
          (if _ : i = 0 ∨ i = 0 then 0 else runv l (b2jf l aj) (i - 1) (i - 1)) + 1 := by
        rw [runv, if_pos hsii]
      rw [eqj, eqi]
      by_cases h0 : i = 0
      · simp [h0]
      · rw [dif_neg (by omega : ¬(i = 0 ∨ j = 0)), dif_neg (by omega : ¬(i = 0 ∨ i = 0))]
        have := ih (i - 1) (by omega) (by omega) (j - 1) (by omega)
        omega
    · rw [runv, if_neg hs]
      omega

/-- On a self-comparison with the full rectangle, the inner seed loop keeps
best diagonal: every candidate run is dominated by an already-seen (or
currently seen) diagonal run, so best is only ever moved to a diagonal cell.
The state is characterized by runv. -/
theorem innerLoop_diag [DecidableEq α] [Inhabited α] (l : List α) (aj : Bool)
    (j2len : Nat → Nat) (i : Nat) (hi : i < l.length) :
    ∀ (S : List Nat) (new : Nat → Nat) (bi bj bs : Nat),
      List.Pairwise (· < ·) S →
      (∀ j ∈ S, j ∈ b2jf l aj (l.getD i default)) →
      (∀ j ∈ S, (if j = 0 then 0 else j2len (j - 1)) + 1 = runv l (b2jf l aj) i j) →
      (∀ j', new j' = runv l (b2jf l aj) i j' ∨ j' ∈ S) →
      bi = bj →
      (∀ u, u < i → runv l (b2jf l aj) u u ≤ bs) →
      (i ∈ S ∨ runv l (b2jf l aj) i i ≤ bs) →
      (∀ j', (innerLoop j2len 0 l.length i S new bi bj bs).1 j' =
        runv l (b2jf l aj) i j') ∧
      (innerLoop j2len 0 l.length i S new bi bj bs).2.1 =
        (innerLoop j2len 0 l.length i S new bi bj bs).2.2.1 ∧
      (∀ u, u < i →
        runv l (b2jf l aj) u u ≤ (innerLoop j2len 0 l.length i S new bi bj bs).2.2.2) ∧
      runv l (b2jf l aj) i i ≤ (innerLoop j2len 0 l.length i S new bi bj bs).2.2.2 ∧
      bs ≤ (innerLoop j2len 0 l.length i S new bi bj bs).2.2.2 := by
  intro S
  induction S with
  | nil =>
    intro new bi bj bs _ _ _ hnew hdiag hbs hflag
    simp only [innerLoop]
    refine ⟨?_, hdiag, hbs, ?_, le_refl _⟩
    · intro j'
      rcases hnew j' with h | h
      · exact h
      · simp at h
    · rcases hflag with h | h
      · simp at h
      · exact h
  | cons j S ih =>
    intro new bi bj bs hsort hmem h5 hnew hdiag hbs hflag
    have hsj : j ∈ b2jf l aj (l.getD i default) := hmem j (List.mem_cons_self j S)
    obtain ⟨hpop, hjn, hget⟩ := (mem_b2jf l aj _ j).mp hsj
    have hk : (if j = 0 then 0 else j2len (j - 1)) + 1 = runv l (b2jf l aj) i j :=
      h5 j (List.mem_cons_self j S)
    obtain ⟨hgt, hsort'⟩ := List.pairwise_cons.mp hsort
    simp only [innerLoop]
    rw [if_neg (Nat.not_lt_zero j), if_neg (not_le.mpr hjn), hk]
    have hmem' : ∀ j' ∈ S, j' ∈ b2jf l aj (l.getD i default) :=
      fun j' hj' => hmem j' (List.mem_cons_of_mem j hj')
    have h5' : ∀ j' ∈ S, (if j' = 0 then 0 else j2len (j' - 1)) + 1 =
        runv l (b2jf l aj) i j' :=
      fun j' hj' => h5 j' (List.mem_cons_of_mem j hj')
    have hnew' : ∀ j', Function.update new j (runv l (b2jf l aj) i j) j' =
        runv l (b2jf l aj) i j' ∨ j' ∈ S := by
      intro j'
      rw [Function.update_apply]
      by_cases hjj : j' = j
      · rw [if_pos hjj, hjj]
        exact Or.inl rfl
      · rw [if_neg hjj]
        rcases hnew j' with h | h
        · exact Or.inl h
        · rcases List.mem_cons.mp h with h | h
          · exact absurd h hjj
          · exact Or.inr h
    rcases Nat.lt_trichotomy j i with hji | hji | hji
    · -- j < i: the candidate run is dominated by the past diagonal at (j, j)
      have hle : runv l (b2jf l aj) i j ≤ bs :=
        le_trans (runv_le_diag_left l aj i hi j (by omega)) (hbs j hji)
      rw [if_neg (by omega : ¬bs < runv l (b2jf l aj) i j)]
      refine ih _ bi bj bs hsort' hmem' h5' hnew' hdiag hbs ?_
      rcases hflag with h | h
      · rcases List.mem_cons.mp h with h | h
        · omega
        · exact Or.inl h
      · exact Or.inr h
    · -- j = i: best may move, to the diagonal cell (i, i)
      have heq : runv l (b2jf l aj) i j = runv l (b2jf l aj) i i := by rw [hji]
      by_cases hbk : bs < runv l (b2jf l aj) i j
      · rw [if_pos hbk]
        have hrec := ih (Function.update new j (runv l (b2jf l aj) i j))
          (i + 1 - runv l (b2jf l aj) i j) (j + 1 - runv l (b2jf l aj) i j)
          (runv l (b2jf l aj) i j) hsort' hmem' h5' hnew' (by rw [hji])
          (by intro u hu; have := hbs u hu; omega) (Or.inr (by omega))
        obtain ⟨r1, r2, r3, r4, r5⟩ := hrec
        exact ⟨r1, r2, r3, r4, by omega⟩
      · rw [if_neg hbk]
        exact ih _ bi bj bs hsort' hmem' h5' hnew' hdiag hbs (Or.inr (by omega))
    · -- i < j: everything in j :: S is past i, so the flag must already hold
      have hfl : runv l (b2jf l aj) i i ≤ bs := by
        rcases hflag with h | h
        · rcases List.mem_cons.mp h with h | h
          · omega
          · exact absurd (hgt i h) (by omega)
        · exact h
      have hle : runv l (b2jf l aj) i j ≤ bs :=
        le_trans (runv_le_diag_right l aj i hi j (by omega)) hfl
      rw [if_neg (by omega : ¬bs < runv l (b2jf l aj) i j)]
      exact ih _ bi bj bs hsort' hmem' h5' hnew' hdiag hbs (Or.inr hfl)

/-- On a self-comparison over the full rectangle, the seed loop returns a
diagonal best match (besti = bestj): each row's dict is exactly the runv row,
and every candidate is dominated by a diagonal run that best already covers. -/
theorem seedLoop_diag [DecidableEq α] [Inhabited α] (l : List α) (aj : Bool) :
    ∀ (cnt t : Nat) (j2len : Nat → Nat) (bi bj bs : Nat),
      t + cnt ≤ l.length →
      (∀ j', j2len j' = if t = 0 then 0 else runv l (b2jf l aj) (t - 1) j') →
      bi = bj →
      (∀ u, u < t → runv l (b2jf l aj) u u ≤ bs) →
      (seedLoop l (b2jf l aj) 0 l.length (List.range' t cnt) j2len bi bj bs).1 =
        (seedLoop l (b2jf l aj) 0 l.length (List.range' t cnt) j2len bi bj bs).2.1 := by
  intro cnt
  induction cnt with
  | zero =>
    intro t j2len bi bj bs _ _ hdiag _
    simp only [List.range'_zero, seedLoop]
    exact hdiag
  | succ cnt ih =>
    intro t j2len bi bj bs hlen hchar hdiag hbs
    rw [List.range'_succ]
    simp only [seedLoop]
    have ht : t < l.length := by omega
    have h5 : ∀ j ∈ b2jf l aj (l.getD t default),
        (if j = 0 then 0 else j2len (j - 1)) + 1 = runv l (b2jf l aj) t j := by
      intro j hj
      have hrv : runv l (b2jf l aj) t j =
          (if _ : t = 0 ∨ j = 0 then 0 else runv l (b2jf l aj) (t - 1) (j - 1)) + 1 := by
        rw [runv, if_pos hj]
      rw [hrv]
      by_cases hj0 : j = 0
      · rw [if_pos hj0, dif_pos (Or.inr hj0)]
      · rw [if_neg hj0, hchar (j - 1)]
        by_cases ht0 : t = 0
        · rw [if_pos ht0, dif_pos (Or.inl ht0)]
        · rw [if_neg ht0, dif_neg (by omega : ¬(t = 0 ∨ j = 0))]
    have hnew : ∀ j', (fun _ => 0 : Nat → Nat) j' = runv l (b2jf l aj) t j' ∨
        j' ∈ b2jf l aj (l.getD t default) := by
      intro j'
      by_cases hj' : j' ∈ b2jf l aj (l.getD t default)
      · exact Or.inr hj'
      · rw [runv, if_neg hj']
        exact Or.inl rfl
    have hflag : t ∈ b2jf l aj (l.getD t default) ∨
        runv l (b2jf l aj) t t ≤ bs := by
      by_cases hts : t ∈ b2jf l aj (l.getD t default)
      · exact Or.inl hts
      · rw [runv, if_neg hts]
        exact Or.inr (Nat.zero_le _)
    have hrec := innerLoop_diag l aj j2len t ht (b2jf l aj (l.getD t default))
      (fun _ => 0) bi bj bs (b2jf_sorted l aj _) (fun j hj => hj) h5 hnew hdiag
      hbs hflag
    obtain ⟨r1, r2, r3, r4, r5⟩ := hrec
    refine ih (t + 1) _ _ _ _ (by omega) ?_ r2 ?_
    · intro j'
      rw [if_neg (by omega : ¬t + 1 = 0)]
      simpa using r1 j'
    · intro u hu
      rcases Nat.lt_or_ge u t with h | h
      · exact r3 u h
      · have : u = t := by omega
        rw [this]
        exact r4

/-- On a self-comparison a diagonal best extends backwards all the way to 0. -/
theorem extBack_self [DecidableEq α] [Inhabited α] (l : List α) :
    ∀ (fuel d bs : Nat), d ≤ fuel →
      extBack l l 0 0 fuel d d bs = (0, 0, d + bs) := by
  intro fuel
  induction fuel with
  | zero =>
    intro d bs hd
    interval_cases d
    simp [extBack]
  | succ fuel ih =>
    intro d bs hd
    cases d with
    | zero => simp [extBack]
    | succ d =>
      have hcond : 0 < d + 1 ∧ 0 < d + 1 ∧
          l.getD (d + 1 - 1) default = l.getD (d + 1 - 1) default :=
        ⟨Nat.succ_pos d, Nat.succ_pos d, rfl⟩
      rw [extBack, if_pos hcond]
      simp only [Nat.add_sub_cancel]
      rw [ih d (bs + 1) (by omega)]
      refine congrArg _ (congrArg _ ?_)
      omega

/-- On a self-comparison a diagonal match at (0, 0) extends forwards to the
whole sequence. -/
theorem extFwd_self [DecidableEq α] [Inhabited α] (l : List α) :
    ∀ (fuel bs : Nat), l.length - bs ≤ fuel → bs ≤ l.length →
      extFwd l l l.length l.length fuel 0 0 bs = l.length := by
  intro fuel
  induction fuel with
  | zero =>
    intro bs h1 h2
    simp only [extFwd]
    omega
  | succ fuel ih =>
    intro bs h1 h2
    rcases Nat.lt_or_ge bs l.length with h | h
    · have hcond : 0 + bs < l.length ∧ 0 + bs < l.length ∧
          l.getD (0 + bs) default = l.getD (0 + bs) default :=
        ⟨by omega, by omega, rfl⟩
      rw [extFwd, if_pos hcond]
      exact ih (bs + 1) (by omega) (by omega)
    · have hbs : bs = l.length := by omega
      rw [extFwd, if_neg (fun hc : 0 + bs < l.length ∧ 0 + bs < l.length ∧
        l.getD (0 + bs) default = l.getD (0 + bs) default =>
          absurd hc.1 (by omega))]
      exact hbs

/-- find_longest_match of a sequence against itself over the full rectangle is
the whole diagonal. -/
theorem findLongestMatch_self [DecidableEq α] [Inhabited α] (l : List α)
    (aj : Bool) :
    findLongestMatch l l (b2jf l aj) 0 l.length 0 l.length = ⟨0, 0, l.length⟩ := by
  have hdiag := seedLoop_diag l aj (l.length - 0) 0 (fun _ => 0) 0 0 0
    (by omega) (fun j' => by simp) rfl (fun u hu => by omega)
  have hinv := seedLoop_inv l (b2jf l aj) 0 l.length 0 l.length (l.length - 0) 0
    (fun _ => 0) 0 0 0 (le_refl 0) (by omega) (fun j' => by simp)
    (fun j' hz => by simp only [Nat.lt_irrefl] at hz) (le_refl 0) (by omega)
    (le_refl 0) (by omega)
  set s := seedLoop l (b2jf l aj) 0 l.length (List.range' 0 (l.length - 0))
    (fun _ => 0) 0 0 0 with hs
  obtain ⟨g1, g2, g3, g4⟩ := hinv
  have hback : extBack l l 0 0 s.1 s.1 s.2.1 s.2.2 = (0, 0, s.1 + s.2.2) := by
    rw [← hdiag]
    exact extBack_self l s.1 s.1 s.2.2 (le_refl s.1)
  have hfwd : extFwd l l l.length l.length l.length 0 0 (s.1 + s.2.2) =
      l.length := extFwd_self l l.length (s.1 + s.2.2) (by omega) (by omega)
  calc findLongestMatch l l (b2jf l aj) 0 l.length 0 l.length
      = ⟨(extBack l l 0 0 s.1 s.1 s.2.1 s.2.2).1,
          (extBack l l 0 0 s.1 s.1 s.2.1 s.2.2).2.1,
          extFwd l l l.length l.length l.length
            (extBack l l 0 0 s.1 s.1 s.2.1 s.2.2).1
            (extBack l l 0 0 s.1 s.1 s.2.1 s.2.2).2.1
            (extBack l l 0 0 s.1 s.1 s.2.1 s.2.2).2.2⟩ := rfl
    _ = ⟨0, 0, l.length⟩ := by
        rw [hback]
        show (⟨0, 0, extFwd l l l.length l.length l.length 0 0
          (s.1 + s.2.2)⟩ : MB) = _
        rw [hfwd]

/-- get_matching_blocks of a non-empty sequence against itself: the whole
diagonal plus the terminating sentinel. -/
theorem getMatchingBlocks_self [DecidableEq α] [Inhabited α] (l : List α)
    (aj : Bool) (hl : l ≠ []) :
    getMatchingBlocks l l aj = [⟨0, 0, l.length⟩, ⟨l.length, l.length, 0⟩] := by
  have hn : 0 < l.length := List.length_pos.mpr hl
  have hmb : mbRec l l (b2jf l aj) (l.length + 1) 0 l.length 0 l.length =
      [⟨0, 0, l.length⟩] := by
    rw [mbRec, findLongestMatch_self]
    simp [hn]
  unfold getMatchingBlocks
  rw [hmb]
  simp [nonAdjAux, hn]

/-- ratio() of a non-empty sequence against itself is 1. -/
theorem smRatio_self [DecidableEq α] [Inhabited α] (l : List α) (aj : Bool)
    (hl : l ≠ []) : smRatio l l aj = 1 := by
  have hn : 0 < l.length := List.length_pos.mpr hl
  unfold smRatio
  simp only [getMatchingBlocks_self l aj hl, List.map_cons, List.map_nil,
    List.sum_cons, List.sum_nil]
  rw [if_pos (by omega : 0 < l.length + l.length)]
  have hden : ((l.length + l.length : ℕ) : ℚ) ≠ 0 :=
    Nat.cast_ne_zero.mpr (by omega)
  rw [div_eq_one_iff_eq hden]
  push_cast
  ring

/-- When the sequences share no elements, every b2j lookup from a is empty. -/
theorem b2jf_disjoint_nil [DecidableEq α] [Inhabited α] (a b : List α)
    (aj : Bool) (hdisj : ∀ c ∈ a, c ∉ b) :
    ∀ i, i < a.length → b2jf b aj (a.getD i default) = [] := by
  intro i hi
  have hca : a.getD i default ∈ a := List.get?_mem (get?_self_getD hi)
  rw [List.eq_nil_iff_forall_not_mem]
  intro j hj
  obtain ⟨_, _, hget⟩ := (mem_b2jf b aj _ j).mp hj
  exact hdisj _ hca (List.get?_mem hget)

/-- The seed loop is a no-op when every visited b2j list is empty. -/
theorem seedLoop_nil [DecidableEq α] [Inhabited α] (a : List α)
    (bj2 : α → List Nat) (blo bhi : Nat) :
    ∀ (is : List Nat) (f : Nat → Nat) (bi bj bs : Nat),
      (∀ i ∈ is, bj2 (a.getD i default) = []) →
      seedLoop a bj2 blo bhi is f bi bj bs = (bi, bj, bs) := by
  intro is
  induction is with
  | nil =>
    intro f bi bj bs _
    simp only [seedLoop]
  | cons i rest ih =>
    intro f bi bj bs h
    simp only [seedLoop]
    rw [h i (List.mem_cons_self i rest)]
    simp only [innerLoop]
    exact ih _ bi bj bs (fun i' hi' => h i' (List.mem_cons_of_mem i hi'))

/-- The forward extension does not move when the sequences are disjoint. -/
theorem extFwd_disjoint [DecidableEq α] [Inhabited α] (a b : List α)
    (hdisj : ∀ c ∈ a, c ∉ b) :
    ∀ fuel, extFwd a b a.length b.length fuel 0 0 0 = 0 := by
  intro fuel
  cases fuel with
  | zero => rfl
  | succ fuel =>
    rw [extFwd, if_neg]
    rintro ⟨h1, h2, h3⟩
    have hca : a.getD (0 + 0) default ∈ a :=
      List.get?_mem (get?_self_getD (by omega))
    have hcb : b.getD (0 + 0) default ∈ b :=
      List.get?_mem (get?_self_getD (by omega))
    rw [h3] at hca
    exact hdisj _ hca hcb

/-- find_longest_match finds nothing between disjoint sequences. -/
theorem findLongestMatch_disjoint [DecidableEq α] [Inhabited α] (a b : List α)
    (aj : Bool) (hdisj : ∀ c ∈ a, c ∉ b) :
    findLongestMatch a b (b2jf b aj) 0 a.length 0 b.length = ⟨0, 0, 0⟩ := by
  have hseed := seedLoop_nil a (b2jf b aj) 0 b.length
    (List.range' 0 (a.length - 0)) (fun _ => 0) 0 0 0
    (by
      intro i hi
      have : i < a.length := by
        have := List.mem_range'_1.mp hi
        omega
      exact b2jf_disjoint_nil a b aj hdisj i this)
  set s := seedLoop a (b2jf b aj) 0 b.length (List.range' 0 (a.length - 0))
    (fun _ => 0) 0 0 0 with hs
  calc findLongestMatch a b (b2jf b aj) 0 a.length 0 b.length
      = ⟨(extBack a b 0 0 s.1 s.1 s.2.1 s.2.2).1,
          (extBack a b 0 0 s.1 s.1 s.2.1 s.2.2).2.1,
          extFwd a b a.length b.length a.length
            (extBack a b 0 0 s.1 s.1 s.2.1 s.2.2).1
            (extBack a b 0 0 s.1 s.1 s.2.1 s.2.2).2.1
            (extBack a b 0 0 s.1 s.1 s.2.1 s.2.2).2.2⟩ := rfl
    _ = ⟨0, 0, 0⟩ := by
        rw [hseed]
        show (⟨0, 0, extFwd a b a.length b.length a.length 0 0 0⟩ : MB) = _
        rw [extFwd_disjoint a b hdisj]

/-- get_matching_blocks between disjoint sequences is just the sentinel. -/
theorem getMatchingBlocks_disjoint [DecidableEq α] [Inhabited α] (a b : List α)
    (aj : Bool) (hdisj : ∀ c ∈ a, c ∉ b) :
    getMatchingBlocks a b aj = [⟨a.length, b.length, 0⟩] := by
  have hmb : mbRec a b (b2jf b aj) (a.length + 1) 0 a.length 0 b.length = [] := by
    rw [mbRec, findLongestMatch_disjoint a b aj hdisj]
    simp
  unfold getMatchingBlocks
  rw [hmb]
  simp [nonAdjAux]

/-- ratio() between disjoint sequences, at least one non-empty, is 0. -/
theorem smRatio_disjoint [DecidableEq α] [Inhabited α] (a b : List α)
    (aj : Bool) (hdisj : ∀ c ∈ a, c ∉ b) (hne : a ≠ [] ∨ b ≠ []) :
    smRatio a b aj = 0 := by
  have hn : 0 < a.length + b.length := by
    rcases hne with h | h
    · have := List.length_pos.mpr h
      omega
    · have := List.length_pos.mpr h
      omega
  unfold smRatio
  simp only [getMatchingBlocks_disjoint a b aj hdisj, List.map_cons,
    List.map_nil, List.sum_cons, List.sum_nil]
  rw [if_pos hn]
  simp

/-- C4 (counterexample): the claim's second half fails on the pair of empty
strings: "" and "" share no characters, yet calculate_similarity "" "" is 1,
not 0, because Python's _calculate_ratio returns 1.0 when both inputs are
empty. -/
theorem C4_counterexample :
    (∀ c ∈ "".data, c ∉ "".data) ∧
    decide (calculate_similarity "" "" = 0) = false ∧
    calculate_similarity "" "" = 1 := by
  refine ⟨by simp, by decide, by decide⟩

/-- C4 (amended): for every non-empty string X, calculate_similarity X X = 1;
and for strings X Y sharing no characters, AT LEAST ONE NON-EMPTY,
calculate_similarity X Y = 0 (for the both-empty pair the ratio is 1). -/
theorem C4_amended (X Y : String) :
    (X ≠ "" → calculate_similarity X X = 1) ∧
    ((∀ c ∈ X.data, c ∉ Y.data) → (X ≠ "" ∨ Y ≠ "") →
      calculate_similarity X Y = 0) := by
  constructor
  · intro hX
    unfold calculate_similarity
    refine smRatio_self X.data true ?_
    intro h
    exact hX (String.ext h)
  · intro hdisj hne
    unfold calculate_similarity
    refine smRatio_disjoint X.data Y.data true hdisj ?_
    rcases hne with h | h
    · exact Or.inl (fun hd => h (String.ext hd))
    · exact Or.inr (fun hd => h (String.ext hd))

/-- C4 amended witness at concrete inputs. -/
theorem C4_amended_witness :
    calculate_similarity "ab" "ab" = 1 ∧ calculate_similarity "ab" "cd" = 0 :=
  ⟨(C4_amended "ab" "ab").1 (by decide),
   (C4_amended "ab" "cd").2 (by decide) (Or.inl (by decide))⟩

end Fantasim
